import Mathlib

/-!
# Verification of the psycopg-toolkit field-classification and JSON marshaling layer

Shallow embedding of:

* `src/psycopg_toolkit/utils/type_inspector.py` — the type classifier
  (`TypeInspector._is_list_of_float`, `_is_vector_type`, `_is_json_type`,
  `_check_union_type`, `detect_json_fields`, `detect_vector_fields`);
* `src/psycopg_toolkit/utils/json_handler.py` — `CustomJSONEncoder.default`;
* the value codec (`JSONHandler.serialize` / `JSONHandler.deserialize`) and the
  repository marshaling policy (`BaseRepository._preprocess_data` /
  `_postprocess_data`), whose implementation files are not in the source tree:
  those definitions are modelled from the specification (each is marked
  `Modelled from the spec:` in its doc comment).

Python type annotations are represented by the inductive `Ann`; Python runtime
values by `PyVal`; JSON documents by `JsonVal`; JSON wire text by `Wire`
(the text layer of `json.dumps`/`json.loads` is external library behavior, so
well-formed text is identified with the document it denotes and malformed text
is kept abstract as its raw string).
-/

/-- Scalar (non-container) Python annotations: the leaf types the classifier
distinguishes.  `noneType` is `type(None)` as it appears in `Optional`/union
annotations; `model s` stands for any other plain class (e.g. a Pydantic
model), which has no `typing` origin. -/
inductive ScalarKind where
  | float
  | int
  | str
  | bool
  | noneType
  | model (name : String)
  deriving DecidableEq

/-- A Python type annotation, as seen through `typing.get_origin` /
`typing.get_args`:  `list e` has origin `list` with args `(e,)`, `dict k v`
has origin `dict`, `union args` has origin `Union` (or is a
`types.UnionType`), and `scalar k` has no origin. -/
inductive Ann where
  | scalar (k : ScalarKind)
  | list (elem : Ann)
  | dict (key value : Ann)
  | union (args : List Ann)

/-- `Optional[inner]` is `Union[inner, None]`. -/
def Ann.optional (inner : Ann) : Ann :=
  Ann.union [inner, Ann.scalar ScalarKind.noneType]

/-- The `arg is type(None)` identity test used when walking union members. -/
def Ann.isNoneType : Ann → Bool
  | Ann.scalar ScalarKind.noneType => true
  | _ => false

/-- `TypeInspector._is_list_of_float`: the annotation has `list` origin with
exactly one type argument which is `float` itself (`args[0] is float`).
The legacy `typing.List[float]` branch of the source coincides with the
`origin is list` branch on this representation. -/
def TypeInspector.is_list_of_float : Ann → Bool
  | Ann.list (Ann.scalar ScalarKind.float) => true
  | _ => false

/-- `TypeInspector._is_vector_type`: a direct `list[float]`, or a union whose
members include `list[float]` (skipping `type(None)` members). -/
def TypeInspector.is_vector_type (a : Ann) : Bool :=
  TypeInspector.is_list_of_float a ||
    (match a with
     | Ann.union args =>
         args.any fun arg =>
           !arg.isNoneType && TypeInspector.is_list_of_float arg
     | _ => false)

mutual
/-- `TypeInspector._is_json_type`: `dict`/`list` origin
(`_check_origin_type`, also covering `_check_legacy_typing` on this
representation), or a union with a JSON-typed non-`None` member
(`_check_union_type`).  String forward references do not occur in this
representation. -/
def TypeInspector.is_json_type : Ann → Bool
  | Ann.scalar _ => false
  | Ann.list _ => true
  | Ann.dict _ _ => true
  | Ann.union args => TypeInspector.is_json_type_of_any args

/-- The loop of `TypeInspector._check_union_type`: some member other than
`type(None)` is a JSON type. -/
def TypeInspector.is_json_type_of_any : List Ann → Bool
  | [] => false
  | arg :: rest =>
      (!arg.isNoneType && TypeInspector.is_json_type arg) ||
      TypeInspector.is_json_type_of_any rest
end

/-- The resolved storage classification of a field (spec section 3). -/
inductive Classification where
  | JSON
  | ARRAY
  | VECTOR
  | DATE
  | PLAIN
  deriving DecidableEq

/-- Modelled from the spec: the auto-classification of one field.  The two
detection predicates are the source functions `TypeInspector._is_vector_type`
and `TypeInspector._is_json_type`; the combination into a single
classification lives in `BaseRepository.__init__` (repositories/base.py, not
in the source tree).  Vector detection is resolved first: the spec requires
`classify(Sequence(Scalar(float))) = VECTOR` although `list[float]` also
satisfies the JSON predicate, and the repository tests pin that a detected
vector field is excluded from the JSON field set. -/
def classify (a : Ann) : Classification :=
  if TypeInspector.is_vector_type a then Classification.VECTOR
  else if TypeInspector.is_json_type a then Classification.JSON
  else Classification.PLAIN

/-! ## Python runtime values and the value codec -/

/-- A Python `float`: a finite value (kept exact as a rational; the binary
floating-point representation is not modelled) or one of the three
non-finite values. -/
inductive PyFloat where
  | finite (q : Rat)
  | inf
  | negInf
  | nan
  deriving DecidableEq

/-- A fixed UTC offset attached to a datetime (`timezone(timedelta(...))`). -/
structure TzOffset where
  negative : Bool
  hours : Nat
  minutes : Nat
  deriving DecidableEq

/-- Left-pad the decimal form of `n` with zeros up to width `w`. -/
def padNat (w n : Nat) : String :=
  let s := toString n
  String.mk (List.replicate (w - s.length) '0') ++ s

/-- The `±HH:MM` suffix `datetime.isoformat` prints for a fixed offset. -/
def TzOffset.toIso (o : TzOffset) : String :=
  (if o.negative then "-" else "+") ++ padNat 2 o.hours ++ ":" ++ padNat 2 o.minutes

/-- A `datetime.datetime` value, by its components. -/
structure PyDateTime where
  year : Nat
  month : Nat
  day : Nat
  hour : Nat
  minute : Nat
  second : Nat
  microsecond : Nat
  tz : Option TzOffset
  deriving DecidableEq

/-- A `datetime.date` value. -/
structure PyDate where
  year : Nat
  month : Nat
  day : Nat
  deriving DecidableEq

/-- `date.isoformat()`: `YYYY-MM-DD`. -/
def PyDate.isoformat (d : PyDate) : String :=
  padNat 4 d.year ++ "-" ++ padNat 2 d.month ++ "-" ++ padNat 2 d.day

/-- `datetime.isoformat()`: `YYYY-MM-DDTHH:MM:SS[.ffffff]` followed by the
UTC-offset suffix when tzinfo is attached (standard-library behavior:
microseconds are omitted when zero, the offset when absent). -/
def PyDateTime.isoformat (dt : PyDateTime) : String :=
  padNat 4 dt.year ++ "-" ++ padNat 2 dt.month ++ "-" ++ padNat 2 dt.day ++ "T" ++
    padNat 2 dt.hour ++ ":" ++ padNat 2 dt.minute ++ ":" ++ padNat 2 dt.second ++
    (if dt.microsecond = 0 then "" else "." ++ padNat 6 dt.microsecond) ++
    (match dt.tz with
     | none => ""
     | some o => o.toIso)

/-- An in-memory Python value tree, covering the JSON primitives plus the
leaf types `CustomJSONEncoder` recognizes.  `pyModel kvs` is an object
exposing `model_dump()` (a Pydantic model) whose dump is `kvs`;
`unsupported` is any other non-serializable object (e.g. `bytes`, a custom
class). -/
inductive PyVal where
  | none
  | bool (b : Bool)
  | int (n : Int)
  | float (x : PyFloat)
  | str (s : String)
  | list (xs : List PyVal)
  | dict (kvs : List (String × PyVal))
  | set (xs : List PyVal)
  | uuid (s : String)
  | datetime (dt : PyDateTime)
  | date (d : PyDate)
  | decimal (q : Rat)
  | pyModel (kvs : List (String × PyVal))
  | unsupported (tag : String)

mutual
/-- Structural size of a value; convertible leaves and the containers
`set`/`pyModel` weigh one extra so that each `CustomJSONEncoder.default`
conversion strictly shrinks the value. -/
def PyVal.size : PyVal → Nat
  | PyVal.list xs => 1 + PyVal.sizeList xs
  | PyVal.dict kvs => 1 + PyVal.sizeFields kvs
  | PyVal.set xs => 2 + PyVal.sizeList xs
  | PyVal.pyModel kvs => 2 + PyVal.sizeFields kvs
  | PyVal.uuid _ => 2
  | PyVal.datetime _ => 2
  | PyVal.date _ => 2
  | PyVal.decimal _ => 2
  | _ => 1

/-- Size of a list of values. -/
def PyVal.sizeList : List PyVal → Nat
  | [] => 0
  | v :: rest => 1 + PyVal.size v + PyVal.sizeList rest

/-- Size of a string-keyed field list. -/
def PyVal.sizeFields : List (String × PyVal) → Nat
  | [] => 0
  | kv :: rest => 1 + PyVal.size kv.2 + PyVal.sizeFields rest
end

/-- `CustomJSONEncoder.default` (src/psycopg_toolkit/utils/json_handler.py):
called by `json.dumps` on objects it cannot natively serialize; returns a
serializable replacement or raises `TypeError` (the base-class behavior),
here `Except.error`.  The `isinstance` chain: `UUID → str(obj)`,
`datetime`/`date → obj.isoformat()`, `Decimal → float(obj)` (the rounding to
binary double is not modelled: the rational value is kept), `set → list(obj)`,
objects with `model_dump → obj.model_dump()`. -/
def CustomJSONEncoder.default : PyVal → Except String PyVal
  | PyVal.uuid s => Except.ok (PyVal.str s)
  | PyVal.datetime dt => Except.ok (PyVal.str dt.isoformat)
  | PyVal.date d => Except.ok (PyVal.str d.isoformat)
  | PyVal.decimal q => Except.ok (PyVal.float (PyFloat.finite q))
  | PyVal.set xs => Except.ok (PyVal.list xs)
  | PyVal.pyModel kvs => Except.ok (PyVal.dict kvs)
  | _ => Except.error "TypeError: not JSON serializable"

/-- A JSON document (what a standards-conforming parse of well-formed JSON
text yields).  Integer and non-integer numbers are kept apart, as
`json.loads` yields `int` for integer literals and `float` otherwise; there
is no representation of non-finite numbers (strict JSON-number compliance). -/
inductive JsonVal where
  | null
  | bool (b : Bool)
  | intNum (n : Int)
  | floatNum (q : Rat)
  | str (s : String)
  | arr (xs : List JsonVal)
  | obj (kvs : List (String × JsonVal))

/-- Cause of an encode-path failure (spec section 7). -/
inductive SerCause where
  | cycleDetected
  | unsupportedLeafType
  | nonFiniteNumber
  deriving DecidableEq

/-- `SerializationError{field?, value, cause}` (spec section 7). -/
structure SerErr where
  fieldName : Option String
  value : Option PyVal
  cause : SerCause

/-- Cause of a decode-path failure (spec section 7). -/
inductive DeserCause where
  | malformedText
  deriving DecidableEq

/-- `DeserializationError{field?, rawText, cause}` (spec section 7). -/
structure DeserErr where
  fieldName : Option String
  rawText : String
  cause : DeserCause
  deriving DecidableEq

mutual
/-- The value transformation performed by `json.dumps(·, cls=CustomJSONEncoder,
allow_nan=False)` on an acyclic value: JSON primitives pass through (with
non-finite floats rejected — `allow_nan=False`), containers recurse, and any
other object is replaced by `CustomJSONEncoder.default` and re-encoded; if
`default` raises, the value is an unsupported leaf.  The fallback branches
below are exactly the conversions of `CustomJSONEncoder.default` (see
`encodeVal_via_default`). -/
def encodeVal : PyVal → Except SerErr JsonVal
  | PyVal.none => Except.ok JsonVal.null
  | PyVal.bool b => Except.ok (JsonVal.bool b)
  | PyVal.int n => Except.ok (JsonVal.intNum n)
  | PyVal.float (PyFloat.finite q) => Except.ok (JsonVal.floatNum q)
  | PyVal.float x => Except.error ⟨none, some (PyVal.float x), SerCause.nonFiniteNumber⟩
  | PyVal.str s => Except.ok (JsonVal.str s)
  | PyVal.list xs => Except.map JsonVal.arr (encodeList xs)
  | PyVal.dict kvs => Except.map JsonVal.obj (encodeFields kvs)
  | PyVal.uuid s => encodeVal (PyVal.str s)
  | PyVal.datetime dt => encodeVal (PyVal.str dt.isoformat)
  | PyVal.date d => encodeVal (PyVal.str d.isoformat)
  | PyVal.decimal q => encodeVal (PyVal.float (PyFloat.finite q))
  | PyVal.set xs => encodeVal (PyVal.list xs)
  | PyVal.pyModel kvs => encodeVal (PyVal.dict kvs)
  | PyVal.unsupported t =>
      Except.error ⟨none, some (PyVal.unsupported t), SerCause.unsupportedLeafType⟩
termination_by v => PyVal.size v
decreasing_by
  all_goals simp [PyVal.size, PyVal.sizeList, PyVal.sizeFields]

/-- Encode the elements of a list, failing on the first failing element. -/
def encodeList : List PyVal → Except SerErr (List JsonVal)
  | [] => Except.ok []
  | v :: rest =>
      match encodeVal v with
      | Except.error e => Except.error e
      | Except.ok j =>
          match encodeList rest with
          | Except.error e => Except.error e
          | Except.ok js => Except.ok (j :: js)
termination_by xs => PyVal.sizeList xs
decreasing_by
  all_goals simp [PyVal.size, PyVal.sizeList, PyVal.sizeFields] <;> omega

/-- Encode the values of a string-keyed field list. -/
def encodeFields : List (String × PyVal) → Except SerErr (List (String × JsonVal))
  | [] => Except.ok []
  | kv :: rest =>
      match encodeVal kv.2 with
      | Except.error e => Except.error e
      | Except.ok j =>
          match encodeFields rest with
          | Except.error e => Except.error e
          | Except.ok js => Except.ok ((kv.1, j) :: js)
termination_by kvs => PyVal.sizeFields kvs
decreasing_by
  all_goals simp [PyVal.size, PyVal.sizeList, PyVal.sizeFields] <;> omega
end

mutual
/-- What `json.loads` builds from a JSON document: `null → None`,
booleans, integer literals → `int`, other numbers → `float`, strings,
arrays → `list`, objects → `dict`. -/
def jsonToPy : JsonVal → PyVal
  | JsonVal.null => PyVal.none
  | JsonVal.bool b => PyVal.bool b
  | JsonVal.intNum n => PyVal.int n
  | JsonVal.floatNum q => PyVal.float (PyFloat.finite q)
  | JsonVal.str s => PyVal.str s
  | JsonVal.arr xs => PyVal.list (jsonToPyList xs)
  | JsonVal.obj kvs => PyVal.dict (jsonToPyFields kvs)

/-- Elementwise `jsonToPy` on an array. -/
def jsonToPyList : List JsonVal → List PyVal
  | [] => []
  | j :: rest => jsonToPy j :: jsonToPyList rest

/-- Valuewise `jsonToPy` on an object. -/
def jsonToPyFields : List (String × JsonVal) → List (String × PyVal)
  | [] => []
  | kv :: rest => (kv.1, jsonToPy kv.2) :: jsonToPyFields rest
end

/-- JSON wire text, as classified by a standards-conforming parser:
well-formed text is identified with the document it denotes (`jsonText`),
and text in the parser's rejection set (unterminated structures, trailing
commas, unquoted keys, ...) is kept abstract as its raw string
(`malformed`).  The grammar itself is external library behavior
(`json.loads`). -/
inductive Wire where
  | jsonText (v : JsonVal)
  | malformed (raw : String)

/-- Modelled from the spec: `JSONHandler.serialize`
(src/psycopg_toolkit/utils/json_handler.py declares only
`CustomJSONEncoder`; the `JSONHandler` class itself is not in the source
tree).  `encode(value) -> text`: `json.dumps(value, cls=CustomJSONEncoder,
allow_nan=False)`, producing well-formed JSON text or a structured
serialization failure. -/
def JSONHandler.serialize (v : PyVal) : Except SerErr Wire :=
  Except.map Wire.jsonText (encodeVal v)

/-- Modelled from the spec: `JSONHandler.deserialize` (not in the source
tree).  `decode(text) -> value`: `json.loads`, building the corresponding
Python value from well-formed text and failing with a structured
deserialization error (cause `MalformedText`, carrying the raw text) on
text in the parser's rejection set. -/
def JSONHandler.deserialize : Wire → Except DeserErr PyVal
  | Wire.jsonText j => Except.ok (jsonToPy j)
  | Wire.malformed raw => Except.error ⟨none, raw, DeserCause.malformedText⟩

/-- `decode(encode(v))`, `Option`-valued: `some` when both directions
succeed. -/
def roundTrip (v : PyVal) : Option PyVal :=
  match JSONHandler.serialize v with
  | Except.error _ => Option.none
  | Except.ok w =>
      match JSONHandler.deserialize w with
      | Except.error _ => Option.none
      | Except.ok v2 => some v2

mutual
/-- A value composed only of JSON-primitive-safe structures: maps with
string keys, sequences, strings, finite numbers, booleans, null (spec
section 8, round trip). -/
def jsonSafe : PyVal → Bool
  | PyVal.none => true
  | PyVal.bool _ => true
  | PyVal.int _ => true
  | PyVal.float (PyFloat.finite _) => true
  | PyVal.float _ => false
  | PyVal.str _ => true
  | PyVal.list xs => jsonSafeList xs
  | PyVal.dict kvs => jsonSafeFields kvs
  | _ => false

/-- All elements JSON-primitive-safe. -/
def jsonSafeList : List PyVal → Bool
  | [] => true
  | v :: rest => jsonSafe v && jsonSafeList rest

/-- All field values JSON-primitive-safe. -/
def jsonSafeFields : List (String × PyVal) → Bool
  | [] => true
  | kv :: rest => jsonSafe kv.2 && jsonSafeFields rest
end

mutual
/-- Some numeric leaf of the value is non-finite (`inf`, `-inf`, `nan`). -/
def containsNonFinite : PyVal → Bool
  | PyVal.float (PyFloat.finite _) => false
  | PyVal.float _ => true
  | PyVal.list xs => containsNonFiniteList xs
  | PyVal.dict kvs => containsNonFiniteFields kvs
  | PyVal.set xs => containsNonFiniteList xs
  | PyVal.pyModel kvs => containsNonFiniteFields kvs
  | _ => false

/-- Some element contains a non-finite numeric leaf. -/
def containsNonFiniteList : List PyVal → Bool
  | [] => false
  | v :: rest => containsNonFinite v || containsNonFiniteList rest

/-- Some field value contains a non-finite numeric leaf. -/
def containsNonFiniteFields : List (String × PyVal) → Bool
  | [] => false
  | kv :: rest => containsNonFinite kv.2 || containsNonFiniteFields rest
end

mutual
/-- Some leaf of the value has no registered converter and is not a JSON
primitive (an `unsupported` leaf). -/
def hasUnsupported : PyVal → Bool
  | PyVal.unsupported _ => true
  | PyVal.list xs => hasUnsupportedList xs
  | PyVal.dict kvs => hasUnsupportedFields kvs
  | PyVal.set xs => hasUnsupportedList xs
  | PyVal.pyModel kvs => hasUnsupportedFields kvs
  | _ => false

/-- Some element has an unsupported leaf. -/
def hasUnsupportedList : List PyVal → Bool
  | [] => false
  | v :: rest => hasUnsupported v || hasUnsupportedList rest

/-- Some field value has an unsupported leaf. -/
def hasUnsupportedFields : List (String × PyVal) → Bool
  | [] => false
  | kv :: rest => hasUnsupported kv.2 || hasUnsupportedFields rest
end

/-! ## Field marshaling policy (BaseRepository, modelled from the spec) -/

/-- A value in a row mapping exchanged with the data-store driver: either a
text cell (`strCell`, potential JSON wire text) or any other value
(`pyCell`; `pyCell PyVal.none` is SQL `NULL`). -/
inductive RVal where
  | strCell (w : Wire)
  | pyCell (v : PyVal)

/-- The `value is None` test. -/
def PyVal.isNone : PyVal → Bool
  | PyVal.none => true
  | _ => false

/-- The lenient-mode diagnostic emitted when a JSON field fails to decode
(logged as a warning by `_postprocess_data`). -/
def mkDiag (name : String) : String :=
  "Failed to deserialize JSON field " ++ name ++ "; keeping original value"

/-- Modelled from the spec: `BaseRepository._postprocess_data`
(repositories/base.py is not in the source tree) — the decode path
`fromWireRow(rowMapping) -> record`.  Fields in the resolved JSON set are
passed to the codec; a `null` or non-text value is carried through unchanged
and never passed to the codec.  In strict mode the first field-level decode
failure aborts the whole call with the codec's error, tagged with the field
name; in lenient mode the failure is caught, the field's wire value is
retained unchanged, a diagnostic is recorded, and processing continues.
Returns the processed row together with the diagnostics. -/
def fromWireRow (jsonFields : List String) (strict : Bool) :
    List (String × RVal) → Except DeserErr (List (String × RVal) × List String)
  | [] => Except.ok ([], [])
  | (name, cell) :: rest =>
      if name ∈ jsonFields then
        match cell with
        | RVal.strCell (Wire.jsonText j) =>
            match fromWireRow jsonFields strict rest with
            | Except.error e => Except.error e
            | Except.ok (rest2, diags) =>
                Except.ok ((name, RVal.pyCell (jsonToPy j)) :: rest2, diags)
        | RVal.strCell (Wire.malformed raw) =>
            if strict then
              Except.error ⟨some name, raw, DeserCause.malformedText⟩
            else
              match fromWireRow jsonFields strict rest with
              | Except.error e => Except.error e
              | Except.ok (rest2, diags) =>
                  Except.ok ((name, RVal.strCell (Wire.malformed raw)) :: rest2,
                    mkDiag name :: diags)
        | RVal.pyCell v =>
            match fromWireRow jsonFields strict rest with
            | Except.error e => Except.error e
            | Except.ok (rest2, diags) =>
                Except.ok ((name, RVal.pyCell v) :: rest2, diags)
      else
        match fromWireRow jsonFields strict rest with
        | Except.error e => Except.error e
        | Except.ok (rest2, diags) => Except.ok ((name, cell) :: rest2, diags)

/-- Modelled from the spec: `BaseRepository._preprocess_data` (not in the
source tree) — the encode path `toWireRow(record) -> rowMapping`.  Each
field in the resolved JSON set has its value encoded by the codec into JSON
text; a `None` value is never passed to the codec; every other field passes
through unchanged.  A codec failure is reported with the field name and the
offending value. -/
def toWireRow (jsonFields : List String) :
    List (String × PyVal) → Except SerErr (List (String × RVal))
  | [] => Except.ok []
  | (name, v) :: rest =>
      if name ∈ jsonFields ∧ v.isNone = false then
        match JSONHandler.serialize v with
        | Except.error e => Except.error ⟨some name, some v, e.cause⟩
        | Except.ok w =>
            match toWireRow jsonFields rest with
            | Except.error e => Except.error e
            | Except.ok rest2 => Except.ok ((name, RVal.strCell w) :: rest2)
      else
        match toWireRow jsonFields rest with
        | Except.error e => Except.error e
        | Except.ok rest2 => Except.ok ((name, RVal.pyCell v) :: rest2)

/-- Modelled from the spec: the per-schema resolution of the effective JSON
field set in `BaseRepository.__init__` (not in the source tree).  With
auto-detection on, the detected JSON fields are used, otherwise the explicit
`json_fields` override; fields named in the `array_fields` or
`vector_fields` override sets are removed from JSON handling entirely
(pass-through). -/
def resolveJsonFields (detected explicitJson arrayFields vectorFields : List String)
    (autoDetect : Bool) : List String :=
  (if autoDetect then detected else explicitJson).filter
    fun f => f ∉ arrayFields ∧ f ∉ vectorFields

/-! ## Field detection over a model's fields (TypeInspector loops) -/

/-- The outcome of reading one Pydantic field's annotation: the annotation
itself, or an exception raised while inspecting it. -/
inductive FieldAnn where
  | ok (a : Ann)
  | raises

/-- `TypeInspector.detect_json_fields`: iterate the model's fields, adding
each whose annotation satisfies `_is_json_field`; the whole loop runs inside
`try`, so an exception raised while inspecting a field aborts the loop, is
caught and logged, and the names accumulated so far are returned. -/
def TypeInspector.detect_json_fields : List (String × FieldAnn) → List String
  | [] => []
  | (name, FieldAnn.ok a) :: rest =>
      if TypeInspector.is_json_type a
      then name :: TypeInspector.detect_json_fields rest
      else TypeInspector.detect_json_fields rest
  | (_, FieldAnn.raises) :: _ => []

/-- `TypeInspector.detect_vector_fields`: same loop with
`_is_vector_field`, same `try`/`except` around it. -/
def TypeInspector.detect_vector_fields : List (String × FieldAnn) → List String
  | [] => []
  | (name, FieldAnn.ok a) :: rest =>
      if TypeInspector.is_vector_type a
      then name :: TypeInspector.detect_vector_fields rest
      else TypeInspector.detect_vector_fields rest
  | (_, FieldAnn.raises) :: _ => []

/-- The names a detection loop yields from a prefix with no raising field. -/
def detectedNames (p : Ann → Bool) (fields : List (String × FieldAnn)) : List String :=
  fields.filterMap fun nf =>
    match nf.2 with
    | FieldAnn.ok a => if p a then some nf.1 else Option.none
    | FieldAnn.raises => Option.none

/-! ## Object-graph encoding and cycle detection -/

/-- A node of the in-memory object graph, with explicit object identities
(indices into a heap): a non-container leaf, a list of references, or a
string-keyed dict of references.  Cyclic graphs — impossible for the tree
`PyVal` — are expressible here. -/
inductive GNode where
  | atom (v : PyVal)
  | arrN (elems : List Nat)
  | objN (fields : List (String × Nat))

/-- The object identities a node references directly. -/
def GNode.children : GNode → List Nat
  | GNode.atom _ => []
  | GNode.arrN es => es
  | GNode.objN fs => fs.map Prod.snd

/-- Every reference in the heap points into the heap. -/
def wfHeap (h : List GNode) : Bool :=
  h.all fun node => node.children.all fun c => c < h.length

/-- Every leaf object in the heap is encodable (no unsupported leaves, no
non-finite numbers). -/
def atomsOk (h : List GNode) : Bool :=
  h.all fun node =>
    match node with
    | GNode.atom v => (encodeVal v).isOk
    | _ => true

/-- The number of heap identities not on the DFS path: the decreasing
measure of the depth-first walk (the spec's "bounded by the seen-set check,
not by input size"). -/
def freeCount (h : List GNode) (path : List Nat) : Nat :=
  ((List.range h.length).filter fun i => !path.contains i).length

theorem freeCount_cons_lt (h : List GNode) (path : List Nat) (r : Nat)
    (hr : r < h.length) (hnp : path.contains r = false) :
    freeCount h (r :: path) < freeCount h path := by
  unfold freeCount
  have himp : ∀ i : Nat, (!(r :: path).contains i) = true → (!path.contains i) = true := by
    intro i hi
    simp [List.contains_cons] at hi ⊢
    exact hi.2
  have hsub := List.monotone_filter_right (List.range h.length) himp
  refine Nat.lt_of_le_of_ne hsub.length_le fun heq => ?_
  have hlists := hsub.eq_of_length heq
  have hrq : r ∈ (List.range h.length).filter fun i => !path.contains i := by
    refine List.mem_filter.mpr ⟨List.mem_range.mpr hr, ?_⟩
    simpa using hnp
  rw [← hlists] at hrq
  have := (List.mem_filter.mp hrq).2
  simp [List.contains_cons] at this

mutual
/-- Modelled from the spec: the codec's depth-first walk over the object
graph, keeping the set of object identities on the current path (the
seen-set; `json.dumps`'s circular-reference markers).  Revisiting an
identity already on the path is a cycle; a dangling reference cannot occur
in a well-formed heap.  Termination is by the seen-set check: each
recursive descent removes one identity from the heap's unvisited set. -/
def encodeRefWalk (h : List GNode) (path : List Nat) (r : Nat) :
    Except SerErr JsonVal :=
  if hcyc : path.contains r = true then
    Except.error ⟨Option.none, Option.none, SerCause.cycleDetected⟩
  else
    match hr : h[r]? with
    | Option.none => Except.error ⟨Option.none, Option.none, SerCause.unsupportedLeafType⟩
    | some (GNode.atom v) => encodeVal v
    | some (GNode.arrN es) => Except.map JsonVal.arr (encodeRefList h (r :: path) es)
    | some (GNode.objN fs) => Except.map JsonVal.obj (encodeRefFields h (r :: path) fs)
termination_by (freeCount h path, 0)
decreasing_by
  all_goals
    apply Prod.Lex.left
    obtain ⟨hlt, -⟩ := List.getElem?_eq_some.mp hr
    exact freeCount_cons_lt h path r hlt (Bool.eq_false_iff.mpr hcyc)

/-- Depth-first encode of a list node's element references. -/
def encodeRefList (h : List GNode) (path : List Nat) :
    List Nat → Except SerErr (List JsonVal)
  | [] => Except.ok []
  | r :: rest =>
      match encodeRefWalk h path r with
      | Except.error e => Except.error e
      | Except.ok j =>
          match encodeRefList h path rest with
          | Except.error e => Except.error e
          | Except.ok js => Except.ok (j :: js)
termination_by es => (freeCount h path, es.length + 1)

/-- Depth-first encode of a dict node's field references. -/
def encodeRefFields (h : List GNode) (path : List Nat) :
    List (String × Nat) → Except SerErr (List (String × JsonVal))
  | [] => Except.ok []
  | fr :: rest =>
      match encodeRefWalk h path fr.2 with
      | Except.error e => Except.error e
      | Except.ok j =>
          match encodeRefFields h path rest with
          | Except.error e => Except.error e
          | Except.ok js => Except.ok ((fr.1, j) :: js)
termination_by fs => (freeCount h path, fs.length + 1)
end

/-- One direct reference step in the heap. -/
def StepsTo (h : List GNode) (a b : Nat) : Prop :=
  ∃ node, h[a]? = some node ∧ b ∈ node.children

/-- The value graph hanging from `r` contains a cycle: some identity
reachable from `r` returns to itself in one or more steps. -/
def cyclicFrom (h : List GNode) (r : Nat) : Prop :=
  ∃ m, Relation.ReflTransGen (StepsTo h) r m ∧ Relation.TransGen (StepsTo h) m m

/-- Modelled from the spec: encoding the fields of a top-level record: each
field's subtree is walked depth-first; a failure in a field's subtree is
reported naming that field (spec: "report which field's subtree contains
the cycle"). -/
def encodeTopFields (h : List GNode) (root : Nat) :
    List (String × Nat) → Except SerErr (List (String × JsonVal))
  | [] => Except.ok []
  | fr :: rest =>
      match encodeRefWalk h [root] fr.2 with
      | Except.error e => Except.error ⟨some fr.1, e.value, e.cause⟩
      | Except.ok j =>
          match encodeTopFields h root rest with
          | Except.error e => Except.error e
          | Except.ok js => Except.ok ((fr.1, j) :: js)

/-- Modelled from the spec: `encode` on an object graph: a top-level record
is encoded field by field (so failures carry the field name); any other
root is walked directly. -/
def encodeGraph (h : List GNode) (root : Nat) : Except SerErr JsonVal :=
  match h[root]? with
  | some (GNode.objN fs) => Except.map JsonVal.obj (encodeTopFields h root fs)
  | _ => encodeRefWalk h [] root

/-! ## Classifier characterization lemmas -/

theorem is_list_of_float_iff (a : Ann) :
    TypeInspector.is_list_of_float a = true ↔
      a = Ann.list (Ann.scalar ScalarKind.float) := by
  cases a with
  | scalar k => simp [TypeInspector.is_list_of_float]
  | list e =>
      cases e with
      | scalar k => cases k <;> simp [TypeInspector.is_list_of_float]
      | list e2 => simp [TypeInspector.is_list_of_float]
      | dict k v => simp [TypeInspector.is_list_of_float]
      | union args => simp [TypeInspector.is_list_of_float]
  | dict k v => simp [TypeInspector.is_list_of_float]
  | union args => simp [TypeInspector.is_list_of_float]

theorem is_vector_type_iff (a : Ann) :
    TypeInspector.is_vector_type a = true ↔
      (a = Ann.list (Ann.scalar ScalarKind.float) ∨
        ∃ args, a = Ann.union args ∧
          Ann.list (Ann.scalar ScalarKind.float) ∈ args) := by
  cases a with
  | scalar k => simp [TypeInspector.is_vector_type, TypeInspector.is_list_of_float]
  | list e => simp [TypeInspector.is_vector_type, is_list_of_float_iff]
  | dict k v => simp [TypeInspector.is_vector_type, TypeInspector.is_list_of_float]
  | union args =>
      simp only [TypeInspector.is_vector_type, TypeInspector.is_list_of_float,
        Bool.false_or, List.any_eq_true, Bool.and_eq_true, Bool.not_eq_true']
      constructor
      · rintro ⟨arg, hmem, hnone, hlf⟩
        exact Or.inr ⟨args, rfl, (is_list_of_float_iff arg).mp hlf ▸ hmem⟩
      · rintro (hl | ⟨args2, heq, hmem⟩)
        · cases hl
        · cases heq
          exact ⟨Ann.list (Ann.scalar ScalarKind.float), hmem, rfl, rfl⟩

theorem classify_eq_vector_iff (a : Ann) :
    classify a = Classification.VECTOR ↔ TypeInspector.is_vector_type a = true := by
  unfold classify
  by_cases hv : TypeInspector.is_vector_type a <;>
    by_cases hj : TypeInspector.is_json_type a <;> simp [hv, hj]

theorem classify_eq_json_iff (a : Ann) :
    classify a = Classification.JSON ↔
      TypeInspector.is_vector_type a = false ∧
        TypeInspector.is_json_type a = true := by
  unfold classify
  by_cases hv : TypeInspector.is_vector_type a <;>
    by_cases hj : TypeInspector.is_json_type a <;> simp [hv, hj]

theorem classify_eq_plain_iff (a : Ann) :
    classify a = Classification.PLAIN ↔
      TypeInspector.is_vector_type a = false ∧
        TypeInspector.is_json_type a = false := by
  unfold classify
  by_cases hv : TypeInspector.is_vector_type a <;>
    by_cases hj : TypeInspector.is_json_type a <;> simp [hv, hj]

theorem is_json_type_of_any_iff (args : List Ann) :
    TypeInspector.is_json_type_of_any args = true ↔
      ∃ a ∈ args, a.isNoneType = false ∧ TypeInspector.is_json_type a = true := by
  induction args with
  | nil => simp [TypeInspector.is_json_type_of_any]
  | cons arg rest ih =>
      simp only [TypeInspector.is_json_type_of_any, Bool.or_eq_true,
        Bool.and_eq_true, Bool.not_eq_true', ih]
      constructor
      · rintro (⟨h1, h2⟩ | ⟨a, hmem, h1, h2⟩)
        · exact ⟨arg, List.mem_cons_self arg rest, h1, h2⟩
        · exact ⟨a, List.mem_cons_of_mem arg hmem, h1, h2⟩
      · rintro ⟨a, hmem, h1, h2⟩
        rcases List.mem_cons.mp hmem with heq | hmem2
        · subst heq; exact Or.inl ⟨h1, h2⟩
        · exact Or.inr ⟨a, hmem2, h1, h2⟩

/-- The annotation is itself a union (`typing.Union` origin). -/
def Ann.isUnion : Ann → Bool
  | Ann.union _ => true
  | _ => false

/-- C1 — counterexample.  The claim says `classify` returns `VECTOR` exactly
when the descriptor reduces to `Sequence(Scalar(float))` directly or through
one level of `Optional`; but `Union[list[float], str]` — not an `Optional` —
also classifies as `VECTOR`, because `TypeInspector._is_vector_type` accepts
any union having `list[float]` among its members. -/
theorem vector_classification_union_counterexample :
    classify (Ann.union [Ann.list (Ann.scalar ScalarKind.float),
        Ann.scalar ScalarKind.str]) = Classification.VECTOR
    ∧ Ann.union [Ann.list (Ann.scalar ScalarKind.float), Ann.scalar ScalarKind.str]
        ≠ Ann.list (Ann.scalar ScalarKind.float)
    ∧ Ann.union [Ann.list (Ann.scalar ScalarKind.float), Ann.scalar ScalarKind.str]
        ≠ Ann.optional (Ann.list (Ann.scalar ScalarKind.float)) := by
  refine ⟨rfl, by simp, ?_⟩
  intro h
  simp [Ann.optional] at h

/-- C1 (amended): `classify` returns `VECTOR` exactly when the descriptor is
`Sequence(Scalar(float))` itself, or a union — in particular
`Optional(Sequence(Scalar(float)))`, but also any other union — having
`Sequence(Scalar(float))` among its members; and on
`Sequence(Scalar(int))`, `Sequence(Scalar(string))`,
`Sequence(Structured(_))` and `Mapping(Scalar(float))` it returns `JSON`,
never `VECTOR`. -/
theorem vector_classification_characterization :
    (∀ a : Ann, classify a = Classification.VECTOR ↔
        (a = Ann.list (Ann.scalar ScalarKind.float) ∨
          ∃ args, a = Ann.union args ∧
            Ann.list (Ann.scalar ScalarKind.float) ∈ args))
    ∧ classify (Ann.list (Ann.scalar ScalarKind.float)) = Classification.VECTOR
    ∧ classify (Ann.optional (Ann.list (Ann.scalar ScalarKind.float)))
        = Classification.VECTOR
    ∧ classify (Ann.list (Ann.scalar ScalarKind.int)) = Classification.JSON
    ∧ classify (Ann.list (Ann.scalar ScalarKind.str)) = Classification.JSON
    ∧ (∀ name, classify (Ann.list (Ann.scalar (ScalarKind.model name)))
        = Classification.JSON)
    ∧ (∀ key, classify (Ann.dict key (Ann.scalar ScalarKind.float))
        = Classification.JSON) := by
  refine ⟨?_, rfl, rfl, rfl, rfl, fun name => rfl, fun key => rfl⟩
  intro a
  rw [classify_eq_vector_iff]
  exact is_vector_type_iff a

/-- C9 — counterexample.  The claim says that when both `JSON`- and
`VECTOR`-classified members appear in a union, JSON takes precedence; but
for `Union[list[int], list[float]]` — whose members classify `JSON` and
`VECTOR` respectively — the union classifies as `VECTOR`, not `JSON`. -/
theorem union_json_precedence_counterexample :
    classify (Ann.union [Ann.list (Ann.scalar ScalarKind.int),
        Ann.list (Ann.scalar ScalarKind.float)]) = Classification.VECTOR
    ∧ classify (Ann.list (Ann.scalar ScalarKind.int)) = Classification.JSON
    ∧ classify (Ann.list (Ann.scalar ScalarKind.float)) = Classification.VECTOR
    ∧ Classification.VECTOR ≠ Classification.JSON :=
  ⟨rfl, rfl, rfl, by decide⟩

theorem is_vector_type_union_iff (args : List Ann) :
    TypeInspector.is_vector_type (Ann.union args) = true ↔
      Ann.list (Ann.scalar ScalarKind.float) ∈ args := by
  rw [is_vector_type_iff]
  simp

theorem is_json_type_union_iff (args : List Ann) :
    TypeInspector.is_json_type (Ann.union args) = true ↔
      ∃ a ∈ args, a.isNoneType = false ∧ TypeInspector.is_json_type a = true := by
  rw [TypeInspector.is_json_type]
  exact is_json_type_of_any_iff args

theorem classify_vector_not_union (a : Ann) (h : a.isUnion = false) :
    classify a = Classification.VECTOR ↔
      a = Ann.list (Ann.scalar ScalarKind.float) := by
  rw [classify_eq_vector_iff, is_vector_type_iff]
  constructor
  · rintro (heq | ⟨args, heq, -⟩)
    · exact heq
    · subst heq; simp [Ann.isUnion] at h
  · intro heq
    exact Or.inl heq

/-- C9 (amended): for a (flat) union descriptor, the classifier classifies
each non-null member; the union classifies as `VECTOR` when some non-null
member does — `VECTOR` takes precedence over `JSON` when both appear among
the members — as `JSON` when some non-null member does and none is `VECTOR`,
and as `PLAIN` otherwise; a `None` member never changes the
classification. -/
theorem union_classification_member_rule :
    (∀ args : List Ann, (∀ a ∈ args, a.isUnion = false) →
      ((classify (Ann.union args) = Classification.VECTOR ↔
          ∃ a ∈ args, a.isNoneType = false ∧ classify a = Classification.VECTOR)
        ∧ (classify (Ann.union args) = Classification.JSON ↔
          ((∃ a ∈ args, a.isNoneType = false ∧ classify a = Classification.JSON)
            ∧ ¬∃ a ∈ args, a.isNoneType = false ∧
                classify a = Classification.VECTOR))
        ∧ (classify (Ann.union args) = Classification.PLAIN ↔
          ∀ a ∈ args, a.isNoneType = true ∨ classify a = Classification.PLAIN)))
    ∧ (∀ args : List Ann,
        classify (Ann.union (Ann.scalar ScalarKind.noneType :: args)) =
          classify (Ann.union args)) := by
  constructor
  · intro args hflat
    have hexv : (∃ a ∈ args, a.isNoneType = false ∧
        classify a = Classification.VECTOR) ↔
        Ann.list (Ann.scalar ScalarKind.float) ∈ args := by
      constructor
      · rintro ⟨a, hmem, -, hca⟩
        have := (classify_vector_not_union a (hflat a hmem)).mp hca
        exact this ▸ hmem
      · intro hmem
        exact ⟨Ann.list (Ann.scalar ScalarKind.float), hmem, rfl, rfl⟩
    refine ⟨?_, ?_, ?_⟩
    · rw [classify_eq_vector_iff, is_vector_type_union_iff]
      exact hexv.symm
    · rw [classify_eq_json_iff]
      constructor
      · rintro ⟨hnv, hj⟩
        have hlfnot : Ann.list (Ann.scalar ScalarKind.float) ∉ args := by
          intro hmem
          rw [(is_vector_type_union_iff args).mpr hmem] at hnv
          cases hnv
        obtain ⟨a, hmem, hnone, hja⟩ := (is_json_type_union_iff args).mp hj
        refine ⟨⟨a, hmem, hnone, ?_⟩, fun hex => hlfnot (hexv.mp hex)⟩
        rw [classify_eq_json_iff]
        refine ⟨?_, hja⟩
        cases hveq : TypeInspector.is_vector_type a with
        | false => rfl
        | true =>
            have := (classify_vector_not_union a (hflat a hmem)).mp
              ((classify_eq_vector_iff a).mpr hveq)
            exact absurd (this ▸ hmem) hlfnot
      · rintro ⟨⟨a, hmem, hnone, hca⟩, hnovec⟩
        have hlfnot : Ann.list (Ann.scalar ScalarKind.float) ∉ args :=
          fun hmem2 => hnovec (hexv.mpr hmem2)
        constructor
        · cases hveq : TypeInspector.is_vector_type (Ann.union args) with
          | false => rfl
          | true => exact absurd ((is_vector_type_union_iff args).mp hveq) hlfnot
        · exact (is_json_type_union_iff args).mpr
            ⟨a, hmem, hnone, ((classify_eq_json_iff a).mp hca).2⟩
    · rw [classify_eq_plain_iff]
      constructor
      · rintro ⟨hnv, hnj⟩ a hmem
        cases hnone : a.isNoneType with
        | true => exact Or.inl rfl
        | false =>
            refine Or.inr ?_
            rw [classify_eq_plain_iff]
            constructor
            · cases hveq : TypeInspector.is_vector_type a with
              | false => rfl
              | true =>
                  have := (classify_vector_not_union a (hflat a hmem)).mp
                    ((classify_eq_vector_iff a).mpr hveq)
                  subst this
                  rw [(is_vector_type_union_iff args).mpr hmem] at hnv
                  cases hnv
            · cases hjeq : TypeInspector.is_json_type a with
              | false => rfl
              | true =>
                  rw [(is_json_type_union_iff args).mpr ⟨a, hmem, hnone, hjeq⟩] at hnj
                  cases hnj
      · intro hall
        constructor
        · cases hveq : TypeInspector.is_vector_type (Ann.union args) with
          | false => rfl
          | true =>
              have hmem := (is_vector_type_union_iff args).mp hveq
              rcases hall _ hmem with hn | hp
              · cases hn
              · cases hp
        · cases hjeq : TypeInspector.is_json_type (Ann.union args) with
          | false => rfl
          | true =>
              obtain ⟨a, hmem, hnone, hja⟩ := (is_json_type_union_iff args).mp hjeq
              rcases hall a hmem with hn | hp
              · rw [hnone] at hn; cases hn
              · rw [((classify_eq_plain_iff a).mp hp).2] at hja; cases hja
  · intro args
    unfold classify
    have h1 : TypeInspector.is_vector_type
        (Ann.union (Ann.scalar ScalarKind.noneType :: args)) =
        TypeInspector.is_vector_type (Ann.union args) := by
      simp [TypeInspector.is_vector_type, TypeInspector.is_list_of_float, Ann.isNoneType]
    have h2 : TypeInspector.is_json_type
        (Ann.union (Ann.scalar ScalarKind.noneType :: args)) =
        TypeInspector.is_json_type (Ann.union args) := by
      simp [TypeInspector.is_json_type, TypeInspector.is_json_type_of_any, Ann.isNoneType]
    rw [h1, h2]

/-- C9 — witness for `union_classification_member_rule` at the concrete
union `Union[list[int], list[float]]`. -/
theorem union_classification_member_rule_witness :
    classify (Ann.union [Ann.list (Ann.scalar ScalarKind.int),
        Ann.list (Ann.scalar ScalarKind.float)]) = Classification.VECTOR :=
  ((union_classification_member_rule.1
      [Ann.list (Ann.scalar ScalarKind.int), Ann.list (Ann.scalar ScalarKind.float)]
      (by intro a hmem; fin_cases hmem <;> rfl)).1).mpr
    ⟨Ann.list (Ann.scalar ScalarKind.float), by simp, rfl, rfl⟩

/-- Whether reading this field's annotation raised. -/
def FieldAnn.isRaises : FieldAnn → Bool
  | FieldAnn.raises => true
  | _ => false

/-- C10: the public detection operations are total.  Exceptions are explicit
in the embedding (`FieldAnn.raises`); both loops return a plain list in
every case: on an exception-free field list they return exactly the fields
whose annotations satisfy the respective predicate, and when some field's
annotation raises, the exception is caught internally and the names
accumulated up to that field are returned. -/
theorem detect_fields_total_accumulated :
    (∀ fields : List (String × FieldAnn),
        (∀ nf ∈ fields, nf.2.isRaises = false) →
          TypeInspector.detect_json_fields fields =
              detectedNames TypeInspector.is_json_type fields
            ∧ TypeInspector.detect_vector_fields fields =
              detectedNames TypeInspector.is_vector_type fields)
    ∧ (∀ (pre : List (String × FieldAnn)) (name : String)
          (post : List (String × FieldAnn)),
        (∀ nf ∈ pre, nf.2.isRaises = false) →
          TypeInspector.detect_json_fields
              (pre ++ (name, FieldAnn.raises) :: post) =
              detectedNames TypeInspector.is_json_type pre
            ∧ TypeInspector.detect_vector_fields
              (pre ++ (name, FieldAnn.raises) :: post) =
              detectedNames TypeInspector.is_vector_type pre) := by
  constructor
  · intro fields hok
    induction fields with
    | nil => exact ⟨rfl, rfl⟩
    | cons nf rest ih =>
        obtain ⟨n, fa⟩ := nf
        cases fa with
        | raises =>
            have := hok (n, FieldAnn.raises) (List.mem_cons_self _ _)
            simp [FieldAnn.isRaises] at this
        | ok a =>
            have hrest := ih fun x hx => hok x (List.mem_cons_of_mem _ hx)
            constructor
            · simp [TypeInspector.detect_json_fields, detectedNames,
                List.filterMap_cons, hrest.1]
              cases hja : TypeInspector.is_json_type a <;>
                simp [hja, detectedNames, ← hrest.1,
                  TypeInspector.detect_json_fields]
            · simp [TypeInspector.detect_vector_fields, detectedNames,
                List.filterMap_cons, hrest.2]
              cases hva : TypeInspector.is_vector_type a <;>
                simp [hva, detectedNames, ← hrest.2,
                  TypeInspector.detect_vector_fields]
  · intro pre name post hok
    induction pre with
    | nil => exact ⟨rfl, rfl⟩
    | cons nf rest ih =>
        obtain ⟨n, fa⟩ := nf
        cases fa with
        | raises =>
            have := hok (n, FieldAnn.raises) (List.mem_cons_self _ _)
            simp [FieldAnn.isRaises] at this
        | ok a =>
            have hrest := ih fun x hx => hok x (List.mem_cons_of_mem _ hx)
            constructor
            · cases hja : TypeInspector.is_json_type a <;>
                · simp [TypeInspector.detect_json_fields, detectedNames,
                    List.filterMap_cons, hja]
                  exact hrest.1
            · cases hva : TypeInspector.is_vector_type a <;>
                · simp [TypeInspector.detect_vector_fields, detectedNames,
                    List.filterMap_cons, hva]
                  exact hrest.2

/-- C10 — witness for `detect_fields_total_accumulated`: a model whose third
field's annotation raises yields the names accumulated from the two fields
before it. -/
theorem detect_fields_total_accumulated_witness :
    TypeInspector.detect_json_fields
        [("metadata", FieldAnn.ok (Ann.dict (Ann.scalar ScalarKind.str)
            (Ann.scalar (ScalarKind.model "Any")))),
         ("count", FieldAnn.ok (Ann.scalar ScalarKind.int)),
         ("bad", FieldAnn.raises),
         ("tags", FieldAnn.ok (Ann.list (Ann.scalar ScalarKind.str)))] =
      ["metadata"] :=
  Eq.trans
    ((detect_fields_total_accumulated.2
        [("metadata", FieldAnn.ok (Ann.dict (Ann.scalar ScalarKind.str)
            (Ann.scalar (ScalarKind.model "Any")))),
         ("count", FieldAnn.ok (Ann.scalar ScalarKind.int))]
        "bad"
        [("tags", FieldAnn.ok (Ann.list (Ann.scalar ScalarKind.str)))]
        (by intro nf hmem; fin_cases hmem <;> rfl)).1)
    rfl

/-! ## Codec theorems -/

theorem PyVal.size_pos (v : PyVal) : 1 ≤ PyVal.size v := by
  cases v <;> simp [PyVal.size] <;> omega

theorem encodeVal_via_default (v w : PyVal)
    (h : CustomJSONEncoder.default v = Except.ok w) : encodeVal v = encodeVal w := by
  cases v <;> simp [CustomJSONEncoder.default] at h <;> rw [← h] <;> simp [encodeVal]

theorem roundtrip_main (n : Nat) :
    (∀ v, PyVal.size v ≤ n → jsonSafe v = true →
      ∃ j, encodeVal v = Except.ok j ∧ jsonToPy j = v)
    ∧ (∀ xs, PyVal.sizeList xs ≤ n → jsonSafeList xs = true →
      ∃ js, encodeList xs = Except.ok js ∧ jsonToPyList js = xs)
    ∧ (∀ kvs, PyVal.sizeFields kvs ≤ n → jsonSafeFields kvs = true →
      ∃ js, encodeFields kvs = Except.ok js ∧ jsonToPyFields js = kvs) := by
  induction n with
  | zero =>
      refine ⟨fun v hsize _ => absurd (Nat.le_trans (PyVal.size_pos v) hsize) (by omega),
        fun xs hsize _ => ?_, fun kvs hsize _ => ?_⟩
      · cases xs with
        | nil => exact ⟨[], by simp [encodeList], by simp [jsonToPyList]⟩
        | cons v rest => simp [PyVal.sizeList] at hsize
      · cases kvs with
        | nil => exact ⟨[], by simp [encodeFields], by simp [jsonToPyFields]⟩
        | cons kv rest => simp [PyVal.sizeFields] at hsize
  | succ n ih =>
      refine ⟨?_, ?_, ?_⟩
      · intro v hsize hsafe
        cases v with
        | none => exact ⟨JsonVal.null, by simp [encodeVal], by simp [jsonToPy]⟩
        | bool b => exact ⟨JsonVal.bool b, by simp [encodeVal], by simp [jsonToPy]⟩
        | int m => exact ⟨JsonVal.intNum m, by simp [encodeVal], by simp [jsonToPy]⟩
        | float x =>
            cases x with
            | finite q => exact ⟨JsonVal.floatNum q, by simp [encodeVal], by simp [jsonToPy]⟩
            | inf => simp [jsonSafe] at hsafe
            | negInf => simp [jsonSafe] at hsafe
            | nan => simp [jsonSafe] at hsafe
        | str s => exact ⟨JsonVal.str s, by simp [encodeVal], by simp [jsonToPy]⟩
        | list xs =>
            simp only [PyVal.size] at hsize
            obtain ⟨js, h1, h2⟩ := ih.2.1 xs (by omega) (by simpa [jsonSafe] using hsafe)
            exact ⟨JsonVal.arr js, by simp [encodeVal, h1, Except.map],
              by simp [jsonToPy, h2]⟩
        | dict kvs =>
            simp only [PyVal.size] at hsize
            obtain ⟨js, h1, h2⟩ := ih.2.2 kvs (by omega) (by simpa [jsonSafe] using hsafe)
            exact ⟨JsonVal.obj js, by simp [encodeVal, h1, Except.map],
              by simp [jsonToPy, h2]⟩
        | set xs => simp [jsonSafe] at hsafe
        | uuid s => simp [jsonSafe] at hsafe
        | datetime dt => simp [jsonSafe] at hsafe
        | date d => simp [jsonSafe] at hsafe
        | decimal q => simp [jsonSafe] at hsafe
        | pyModel kvs => simp [jsonSafe] at hsafe
        | unsupported t => simp [jsonSafe] at hsafe
      · intro xs hsize hsafe
        cases xs with
        | nil => exact ⟨[], by simp [encodeList], by simp [jsonToPyList]⟩
        | cons v rest =>
            simp only [PyVal.sizeList] at hsize
            simp only [jsonSafeList, Bool.and_eq_true] at hsafe
            obtain ⟨j, hj1, hj2⟩ := ih.1 v (by omega) hsafe.1
            obtain ⟨js, hr1, hr2⟩ := ih.2.1 rest (by omega) hsafe.2
            refine ⟨j :: js, ?_, ?_⟩
            · simp [encodeList, hj1, hr1]
            · simp [jsonToPyList, hj2, hr2]
      · intro kvs hsize hsafe
        cases kvs with
        | nil => exact ⟨[], by simp [encodeFields], by simp [jsonToPyFields]⟩
        | cons kv rest =>
            simp only [PyVal.sizeFields] at hsize
            simp only [jsonSafeFields, Bool.and_eq_true] at hsafe
            obtain ⟨j, hj1, hj2⟩ := ih.1 kv.2 (by omega) hsafe.1
            obtain ⟨js, hr1, hr2⟩ := ih.2.2 rest (by omega) hsafe.2
            refine ⟨(kv.1, j) :: js, ?_, ?_⟩
            · simp [encodeFields, hj1, hr1]
            · simp [jsonToPyFields, hj2, hr2]

/-- C4: for every value composed only of JSON-primitive-safe structures
(maps with string keys, sequences, strings, numbers, booleans, null),
decoding the codec's encoding yields the original value. -/
theorem codec_roundtrip (v : PyVal) (hsafe : jsonSafe v = true) :
    roundTrip v = some v := by
  obtain ⟨j, h1, h2⟩ := (roundtrip_main (PyVal.size v)).1 v (Nat.le_refl _) hsafe
  simp [roundTrip, JSONHandler.serialize, h1, Except.map, JSONHandler.deserialize, h2]

/-- The round-trip test value of `test_roundtrip_serialization`. -/
def roundTripSample : PyVal :=
  PyVal.dict
    [("string", PyVal.str "test"),
     ("number", PyVal.int 123),
     ("float", PyVal.float (PyFloat.finite (123.45 : Rat))),
     ("boolean", PyVal.bool true),
     ("null", PyVal.none),
     ("array", PyVal.list [PyVal.int 1, PyVal.int 2, PyVal.int 3, PyVal.str "string"]),
     ("object", PyVal.dict [("nested", PyVal.str "value"), ("number", PyVal.int 42)])]

/-- C4 — witness for `codec_roundtrip` at the concrete value of the
repository's round-trip unit test. -/
theorem codec_roundtrip_witness : roundTrip roundTripSample = some roundTripSample :=
  codec_roundtrip roundTripSample rfl

/-- C5: `CustomJSONEncoder.default` maps a UUID leaf to its string form, a
datetime/date leaf to its ISO-8601 string — with any attached offset
preserved as a suffix of the formatted string — a fixed-precision decimal
leaf to a double-precision float (the rational value is preserved in this
model; the binary rounding is not modelled), a set to a list, and a Pydantic
model to its `model_dump()` plain form; consequently
`decode(encode({"x": u}))["x"] == str(u)` — the typed value is not
reconstructed. -/
theorem encoder_leaf_conversions :
    (∀ s, CustomJSONEncoder.default (PyVal.uuid s) = Except.ok (PyVal.str s))
    ∧ (∀ dt : PyDateTime, CustomJSONEncoder.default (PyVal.datetime dt) =
        Except.ok (PyVal.str dt.isoformat))
    ∧ (∀ (dt : PyDateTime) (o : TzOffset), dt.tz = some o →
        ∃ base, dt.isoformat = base ++ o.toIso)
    ∧ (∀ d : PyDate, CustomJSONEncoder.default (PyVal.date d) =
        Except.ok (PyVal.str d.isoformat))
    ∧ (∀ q, CustomJSONEncoder.default (PyVal.decimal q) =
        Except.ok (PyVal.float (PyFloat.finite q)))
    ∧ (∀ xs, CustomJSONEncoder.default (PyVal.set xs) = Except.ok (PyVal.list xs))
    ∧ (∀ kvs, CustomJSONEncoder.default (PyVal.pyModel kvs) =
        Except.ok (PyVal.dict kvs))
    ∧ (∀ s, roundTrip (PyVal.dict [("x", PyVal.uuid s)]) =
        some (PyVal.dict [("x", PyVal.str s)])) := by
  refine ⟨fun s => rfl, fun dt => rfl, ?_, fun d => rfl, fun q => rfl,
    fun xs => rfl, fun kvs => rfl, ?_⟩
  · intro dt o htz
    refine ⟨padNat 4 dt.year ++ "-" ++ padNat 2 dt.month ++ "-" ++ padNat 2 dt.day
      ++ "T" ++ padNat 2 dt.hour ++ ":" ++ padNat 2 dt.minute ++ ":"
      ++ padNat 2 dt.second
      ++ (if dt.microsecond = 0 then "" else "." ++ padNat 6 dt.microsecond), ?_⟩
    simp [PyDateTime.isoformat, htz]
  · intro s
    simp [roundTrip, JSONHandler.serialize, encodeVal, encodeFields, Except.map,
      JSONHandler.deserialize, jsonToPy, jsonToPyFields]

/-- C5 — witness for `encoder_leaf_conversions`: the offset of an
offset-aware datetime is a suffix of its formatted string. -/
theorem encoder_leaf_conversions_witness :
    ∃ base, (PyDateTime.mk 2024 1 15 10 30 45 0
        (some (TzOffset.mk false 2 0))).isoformat = base ++
      (TzOffset.mk false 2 0).toIso :=
  encoder_leaf_conversions.2.2.1 _ (TzOffset.mk false 2 0) rfl

theorem encode_nonfinite_main (n : Nat) :
    (∀ v, PyVal.size v ≤ n →
      ((∀ j, encodeVal v = Except.ok j → containsNonFinite v = false)
        ∧ (hasUnsupported v = false → containsNonFinite v = false →
            ∃ j, encodeVal v = Except.ok j)
        ∧ (hasUnsupported v = false → containsNonFinite v = true →
            ∃ e, encodeVal v = Except.error e ∧
              e.cause = SerCause.nonFiniteNumber)))
    ∧ (∀ xs, PyVal.sizeList xs ≤ n →
      ((∀ js, encodeList xs = Except.ok js → containsNonFiniteList xs = false)
        ∧ (hasUnsupportedList xs = false → containsNonFiniteList xs = false →
            ∃ js, encodeList xs = Except.ok js)
        ∧ (hasUnsupportedList xs = false → containsNonFiniteList xs = true →
            ∃ e, encodeList xs = Except.error e ∧
              e.cause = SerCause.nonFiniteNumber)))
    ∧ (∀ kvs, PyVal.sizeFields kvs ≤ n →
      ((∀ js, encodeFields kvs = Except.ok js → containsNonFiniteFields kvs = false)
        ∧ (hasUnsupportedFields kvs = false → containsNonFiniteFields kvs = false →
            ∃ js, encodeFields kvs = Except.ok js)
        ∧ (hasUnsupportedFields kvs = false → containsNonFiniteFields kvs = true →
            ∃ e, encodeFields kvs = Except.error e ∧
              e.cause = SerCause.nonFiniteNumber))) := by
  induction n with
  | zero =>
      refine ⟨fun v hsize => absurd (Nat.le_trans (PyVal.size_pos v) hsize) (by omega),
        fun xs hsize => ?_, fun kvs hsize => ?_⟩
      · cases xs with
        | nil =>
            exact ⟨fun js _ => rfl, fun _ _ => ⟨[], by simp [encodeList]⟩,
              fun _ h => by simp [containsNonFiniteList] at h⟩
        | cons v rest => simp [PyVal.sizeList] at hsize
      · cases kvs with
        | nil =>
            exact ⟨fun js _ => rfl, fun _ _ => ⟨[], by simp [encodeFields]⟩,
              fun _ h => by simp [containsNonFiniteFields] at h⟩
        | cons kv rest => simp [PyVal.sizeFields] at hsize
  | succ n ih =>
      have transport : ∀ v w : PyVal, PyVal.size w ≤ n →
          encodeVal v = encodeVal w →
          containsNonFinite v = containsNonFinite w →
          hasUnsupported v = hasUnsupported w →
          ((∀ j, encodeVal v = Except.ok j → containsNonFinite v = false)
            ∧ (hasUnsupported v = false → containsNonFinite v = false →
                ∃ j, encodeVal v = Except.ok j)
            ∧ (hasUnsupported v = false → containsNonFinite v = true →
                ∃ e, encodeVal v = Except.error e ∧
                  e.cause = SerCause.nonFiniteNumber)) := by
        intro v w hw henc hcf hun
        rw [henc, hcf, hun]
        exact ih.1 w hw
      refine ⟨?_, ?_, ?_⟩
      · intro v hsize
        cases v with
        | none =>
            exact ⟨fun j _ => rfl, fun _ _ => ⟨JsonVal.null, by simp [encodeVal]⟩,
              fun _ h => by simp [containsNonFinite] at h⟩
        | bool b =>
            exact ⟨fun j _ => rfl, fun _ _ => ⟨JsonVal.bool b, by simp [encodeVal]⟩,
              fun _ h => by simp [containsNonFinite] at h⟩
        | int m =>
            exact ⟨fun j _ => rfl, fun _ _ => ⟨JsonVal.intNum m, by simp [encodeVal]⟩,
              fun _ h => by simp [containsNonFinite] at h⟩
        | str s =>
            exact ⟨fun j _ => rfl, fun _ _ => ⟨JsonVal.str s, by simp [encodeVal]⟩,
              fun _ h => by simp [containsNonFinite] at h⟩
        | float x =>
            cases x with
            | finite q =>
                exact ⟨fun j _ => rfl,
                  fun _ _ => ⟨JsonVal.floatNum q, by simp [encodeVal]⟩,
                  fun _ h => by simp [containsNonFinite] at h⟩
            | inf =>
                refine ⟨fun j h => ?_, fun _ h => by simp [containsNonFinite] at h,
                  fun _ _ => ⟨⟨Option.none, some (PyVal.float PyFloat.inf),
                    SerCause.nonFiniteNumber⟩, by simp [encodeVal], rfl⟩⟩
                simp [encodeVal] at h
            | negInf =>
                refine ⟨fun j h => ?_, fun _ h => by simp [containsNonFinite] at h,
                  fun _ _ => ⟨⟨Option.none, some (PyVal.float PyFloat.negInf),
                    SerCause.nonFiniteNumber⟩, by simp [encodeVal], rfl⟩⟩
                simp [encodeVal] at h
            | nan =>
                refine ⟨fun j h => ?_, fun _ h => by simp [containsNonFinite] at h,
                  fun _ _ => ⟨⟨Option.none, some (PyVal.float PyFloat.nan),
                    SerCause.nonFiniteNumber⟩, by simp [encodeVal], rfl⟩⟩
                simp [encodeVal] at h
        | uuid s =>
            exact ⟨fun j _ => rfl,
              fun _ _ => ⟨JsonVal.str s, by simp [encodeVal]⟩,
              fun _ h => by simp [containsNonFinite] at h⟩
        | datetime dt =>
            exact ⟨fun j _ => rfl,
              fun _ _ => ⟨JsonVal.str dt.isoformat, by simp [encodeVal]⟩,
              fun _ h => by simp [containsNonFinite] at h⟩
        | date d =>
            exact ⟨fun j _ => rfl,
              fun _ _ => ⟨JsonVal.str d.isoformat, by simp [encodeVal]⟩,
              fun _ h => by simp [containsNonFinite] at h⟩
        | decimal q =>
            exact ⟨fun j _ => rfl,
              fun _ _ => ⟨JsonVal.floatNum q, by simp [encodeVal]⟩,
              fun _ h => by simp [containsNonFinite] at h⟩
        | unsupported t =>
            refine ⟨fun j h => by simp [encodeVal] at h,
              fun h _ => by simp [hasUnsupported] at h,
              fun h _ => by simp [hasUnsupported] at h⟩
        | list xs =>
            simp only [PyVal.size] at hsize
            have hxs := ih.2.1 xs (by omega)
            refine ⟨?_, ?_, ?_⟩
            · intro j h
              simp only [encodeVal] at h
              cases hxse : encodeList xs with
              | error e => rw [hxse] at h; simp [Except.map] at h
              | ok js =>
                  simpa [containsNonFinite] using hxs.1 js hxse
            · intro h1 h2
              simp only [hasUnsupported] at h1
              simp only [containsNonFinite] at h2
              obtain ⟨js, hjs⟩ := hxs.2.1 h1 h2
              exact ⟨JsonVal.arr js, by simp [encodeVal, hjs, Except.map]⟩
            · intro h1 h2
              simp only [hasUnsupported] at h1
              simp only [containsNonFinite] at h2
              obtain ⟨e, he, hc⟩ := hxs.2.2 h1 h2
              exact ⟨e, by simp [encodeVal, he, Except.map], hc⟩
        | dict kvs =>
            simp only [PyVal.size] at hsize
            have hkvs := ih.2.2 kvs (by omega)
            refine ⟨?_, ?_, ?_⟩
            · intro j h
              simp only [encodeVal] at h
              cases hkse : encodeFields kvs with
              | error e => rw [hkse] at h; simp [Except.map] at h
              | ok js =>
                  simpa [containsNonFinite] using hkvs.1 js hkse
            · intro h1 h2
              simp only [hasUnsupported] at h1
              simp only [containsNonFinite] at h2
              obtain ⟨js, hjs⟩ := hkvs.2.1 h1 h2
              exact ⟨JsonVal.obj js, by simp [encodeVal, hjs, Except.map]⟩
            · intro h1 h2
              simp only [hasUnsupported] at h1
              simp only [containsNonFinite] at h2
              obtain ⟨e, he, hc⟩ := hkvs.2.2 h1 h2
              exact ⟨e, by simp [encodeVal, he, Except.map], hc⟩
        | set xs =>
            simp only [PyVal.size] at hsize
            exact transport (PyVal.set xs) (PyVal.list xs)
              (by simp [PyVal.size]; omega) (by simp [encodeVal])
              (by simp [containsNonFinite]) (by simp [hasUnsupported])
        | pyModel kvs =>
            simp only [PyVal.size] at hsize
            exact transport (PyVal.pyModel kvs) (PyVal.dict kvs)
              (by simp [PyVal.size]; omega) (by simp [encodeVal])
              (by simp [containsNonFinite]) (by simp [hasUnsupported])
      · intro xs hsize
        cases xs with
        | nil =>
            exact ⟨fun js _ => rfl, fun _ _ => ⟨[], by simp [encodeList]⟩,
              fun _ h => by simp [containsNonFiniteList] at h⟩
        | cons v rest =>
            simp only [PyVal.sizeList] at hsize
            have hv := ih.1 v (by omega)
            have hrest := ih.2.1 rest (by omega)
            refine ⟨?_, ?_, ?_⟩
            · intro js h
              simp only [encodeList] at h
              cases hve : encodeVal v with
              | error e => rw [hve] at h; simp at h
              | ok j =>
                  rw [hve] at h
                  cases hre : encodeList rest with
                  | error e => rw [hre] at h; simp at h
                  | ok js2 =>
                      simp only [containsNonFiniteList, Bool.or_eq_false_iff]
                      exact ⟨hv.1 j hve, hrest.1 js2 hre⟩
            · intro h1 h2
              simp only [hasUnsupportedList, Bool.or_eq_false_iff] at h1
              simp only [containsNonFiniteList, Bool.or_eq_false_iff] at h2
              obtain ⟨j, hj⟩ := hv.2.1 h1.1 h2.1
              obtain ⟨js, hjs⟩ := hrest.2.1 h1.2 h2.2
              exact ⟨j :: js, by simp [encodeList, hj, hjs]⟩
            · intro h1 h2
              simp only [hasUnsupportedList, Bool.or_eq_false_iff] at h1
              simp only [containsNonFiniteList, Bool.or_eq_true] at h2
              cases hcv : containsNonFinite v with
              | true =>
                  obtain ⟨e, he, hc⟩ := hv.2.2 h1.1 hcv
                  exact ⟨e, by simp [encodeList, he], hc⟩
              | false =>
                  have h2r : containsNonFiniteList rest = true := by
                    rcases h2 with h | h
                    · rw [hcv] at h; cases h
                    · exact h
                  obtain ⟨j, hj⟩ := hv.2.1 h1.1 hcv
                  obtain ⟨e, he, hc⟩ := hrest.2.2 h1.2 h2r
                  exact ⟨e, by simp [encodeList, hj, he], hc⟩
      · intro kvs hsize
        cases kvs with
        | nil =>
            exact ⟨fun js _ => rfl, fun _ _ => ⟨[], by simp [encodeFields]⟩,
              fun _ h => by simp [containsNonFiniteFields] at h⟩
        | cons kv rest =>
            simp only [PyVal.sizeFields] at hsize
            have hv := ih.1 kv.2 (by omega)
            have hrest := ih.2.2 rest (by omega)
            refine ⟨?_, ?_, ?_⟩
            · intro js h
              simp only [encodeFields] at h
              cases hve : encodeVal kv.2 with
              | error e => rw [hve] at h; simp at h
              | ok j =>
                  rw [hve] at h
                  cases hre : encodeFields rest with
                  | error e => rw [hre] at h; simp at h
                  | ok js2 =>
                      simp only [containsNonFiniteFields, Bool.or_eq_false_iff]
                      exact ⟨hv.1 j hve, hrest.1 js2 hre⟩
            · intro h1 h2
              simp only [hasUnsupportedFields, Bool.or_eq_false_iff] at h1
              simp only [containsNonFiniteFields, Bool.or_eq_false_iff] at h2
              obtain ⟨j, hj⟩ := hv.2.1 h1.1 h2.1
              obtain ⟨js, hjs⟩ := hrest.2.1 h1.2 h2.2
              exact ⟨(kv.1, j) :: js, by simp [encodeFields, hj, hjs]⟩
            · intro h1 h2
              simp only [hasUnsupportedFields, Bool.or_eq_false_iff] at h1
              simp only [containsNonFiniteFields, Bool.or_eq_true] at h2
              cases hcv : containsNonFinite kv.2 with
              | true =>
                  obtain ⟨e, he, hc⟩ := hv.2.2 h1.1 hcv
                  exact ⟨e, by simp [encodeFields, he], hc⟩
              | false =>
                  have h2r : containsNonFiniteFields rest = true := by
                    rcases h2 with h | h
                    · rw [hcv] at h; cases h
                    · exact h
                  obtain ⟨j, hj⟩ := hv.2.1 h1.1 hcv
                  obtain ⟨e, he, hc⟩ := hrest.2.2 h1.2 h2r
                  exact ⟨e, by simp [encodeFields, hj, he], hc⟩

/-- C6: the codec enforces strict JSON-number compliance
(`allow_nan=False`).  Encoding never succeeds on a value containing a
non-finite numeric leaf — and the wire model `JsonVal` has no
representation of `Infinity`/`NaN` literals at all — and on any value whose
leaves are otherwise supported, a non-finite numeric leaf makes encode fail
with a `SerializationError` whose cause is `NonFiniteNumber`. -/
theorem encode_rejects_nonfinite :
    (∀ v j, encodeVal v = Except.ok j → containsNonFinite v = false)
    ∧ (∀ v, hasUnsupported v = false → containsNonFinite v = true →
        ∃ e, encodeVal v = Except.error e ∧
          e.cause = SerCause.nonFiniteNumber) := by
  constructor
  · intro v j h
    exact ((encode_nonfinite_main (PyVal.size v)).1 v (Nat.le_refl _)).1 j h
  · intro v h1 h2
    exact ((encode_nonfinite_main (PyVal.size v)).1 v (Nat.le_refl _)).2.2 h1 h2

/-- C6 — witness for `encode_rejects_nonfinite`: `{"x": nan}` fails with
cause `NonFiniteNumber`. -/
theorem encode_rejects_nonfinite_witness :
    ∃ e, encodeVal (PyVal.dict [("x", PyVal.float PyFloat.nan)]) =
        Except.error e ∧ e.cause = SerCause.nonFiniteNumber :=
  encode_rejects_nonfinite.2 (PyVal.dict [("x", PyVal.float PyFloat.nan)]) rfl rfl

/-! ## Marshaling-policy theorems -/

/-- What lenient decode does to one row entry (for stating C2): a JSON field
holding well-formed text is decoded; one holding malformed text is retained
unchanged; a non-text or null value, and every non-JSON field, pass
through. -/
def lenientCell (jsonFields : List String) : String × RVal → String × RVal
  | (name, cell) =>
      if name ∈ jsonFields then
        match cell with
        | RVal.strCell (Wire.jsonText j) => (name, RVal.pyCell (jsonToPy j))
        | RVal.strCell (Wire.malformed raw) => (name, RVal.strCell (Wire.malformed raw))
        | RVal.pyCell v => (name, RVal.pyCell v)
      else (name, cell)

/-- The diagnostics lenient decode emits for one row entry. -/
def lenientDiag (jsonFields : List String) : String × RVal → List String
  | (name, cell) =>
      if name ∈ jsonFields then
        match cell with
        | RVal.strCell (Wire.malformed _) => [mkDiag name]
        | _ => []
      else []

theorem fromWireRow_lenient_eq (jsonFields : List String)
    (row : List (String × RVal)) :
    fromWireRow jsonFields false row =
      Except.ok (row.map (lenientCell jsonFields),
        row.flatMap (lenientDiag jsonFields)) := by
  induction row with
  | nil => rfl
  | cons entry rest ih =>
      obtain ⟨name, cell⟩ := entry
      by_cases hmem : name ∈ jsonFields
      · cases cell with
        | strCell w =>
            cases w with
            | jsonText j => simp [fromWireRow, hmem, ih, lenientCell, lenientDiag]
            | malformed raw => simp [fromWireRow, hmem, ih, lenientCell, lenientDiag]
        | pyCell v => simp [fromWireRow, hmem, ih, lenientCell, lenientDiag]
      · simp [fromWireRow, hmem, ih, lenientCell, lenientDiag]

/-- C2: in lenient mode the decode path returns without raising on every
row; a JSON-classified field holding malformed text keeps its wire value
unchanged in the output and a diagnostic is emitted for it; a
JSON-classified field holding well-formed text is decoded normally; and
every other field is carried through unchanged. -/
theorem lenient_decode_isolates_failures (jsonFields : List String)
    (row : List (String × RVal)) :
    ∃ out diags,
      fromWireRow jsonFields false row = Except.ok (out, diags)
      ∧ (∀ f raw, f ∈ jsonFields →
          (f, RVal.strCell (Wire.malformed raw)) ∈ row →
            (f, RVal.strCell (Wire.malformed raw)) ∈ out ∧ mkDiag f ∈ diags)
      ∧ (∀ f j, f ∈ jsonFields →
          (f, RVal.strCell (Wire.jsonText j)) ∈ row →
            (f, RVal.pyCell (jsonToPy j)) ∈ out)
      ∧ (∀ f c, f ∉ jsonFields → (f, c) ∈ row → (f, c) ∈ out) := by
  refine ⟨row.map (lenientCell jsonFields), row.flatMap (lenientDiag jsonFields),
    fromWireRow_lenient_eq jsonFields row, ?_, ?_, ?_⟩
  · intro f raw hf hmem
    constructor
    · have := List.mem_map_of_mem (lenientCell jsonFields) hmem
      simpa [lenientCell, hf] using this
    · refine List.mem_flatMap.mpr ⟨(f, RVal.strCell (Wire.malformed raw)), hmem, ?_⟩
      simp [lenientDiag, hf]
  · intro f j hf hmem
    have := List.mem_map_of_mem (lenientCell jsonFields) hmem
    simpa [lenientCell, hf] using this
  · intro f c hf hmem
    have := List.mem_map_of_mem (lenientCell jsonFields) hmem
    simpa [lenientCell, hf] using this

/-- C2 — witness for `lenient_decode_isolates_failures` at the spec's
example row: field a holds malformed text, field b holds the JSON text
`[1,2,3]`; lenient decode returns, keeps the value of a unchanged with a
diagnostic, and decodes b. -/
theorem lenient_decode_isolates_failures_witness :
    ∃ out diags,
      fromWireRow ["a", "b"] false
          [("a", RVal.strCell (Wire.malformed "\x7bbad json")),
           ("b", RVal.strCell (Wire.jsonText (JsonVal.arr
              [JsonVal.intNum 1, JsonVal.intNum 2, JsonVal.intNum 3])))] =
        Except.ok (out, diags)
      ∧ ("a", RVal.strCell (Wire.malformed "\x7bbad json")) ∈ out
      ∧ mkDiag "a" ∈ diags
      ∧ ("b", RVal.pyCell (PyVal.list [PyVal.int 1, PyVal.int 2, PyVal.int 3])) ∈ out := by
  obtain ⟨out, diags, heq, hmal, hok, -⟩ :=
    lenient_decode_isolates_failures ["a", "b"]
      [("a", RVal.strCell (Wire.malformed "\x7bbad json")),
       ("b", RVal.strCell (Wire.jsonText (JsonVal.arr
          [JsonVal.intNum 1, JsonVal.intNum 2, JsonVal.intNum 3])))]
  have h1 := hmal "a" "\x7bbad json" (by simp) (by simp)
  have h2 := hok "b" (JsonVal.arr [JsonVal.intNum 1, JsonVal.intNum 2, JsonVal.intNum 3])
    (by simp) (by simp)
  exact ⟨out, diags, heq, h1.1, h1.2,
    by simpa [jsonToPy, jsonToPyList] using h2⟩

/-- Whether this row entry is a JSON-classified field holding malformed
text, i.e. the shape on which a field-level decode failure occurs. -/
def failsAsJson (jsonFields : List String) : String × RVal → Bool
  | (name, RVal.strCell (Wire.malformed _)) => decide (name ∈ jsonFields)
  | _ => false

/-- C3: in strict mode, the first JSON-classified field holding malformed
text aborts the whole decode with a `DeserializationError` naming that
field and carrying the raw text and the cause `MalformedText`; no partial
result is returned (the call yields only the error). -/
theorem strict_decode_aborts (jsonFields : List String)
    (pre : List (String × RVal)) (f : String) (raw : String)
    (rest : List (String × RVal))
    (hf : f ∈ jsonFields)
    (hpre : ∀ p ∈ pre, failsAsJson jsonFields p = false) :
    fromWireRow jsonFields true
        (pre ++ (f, RVal.strCell (Wire.malformed raw)) :: rest) =
      Except.error ⟨some f, raw, DeserCause.malformedText⟩ := by
  induction pre with
  | nil => simp [fromWireRow, hf]
  | cons p pre2 ih =>
      obtain ⟨name, cell⟩ := p
      have hp := hpre (name, cell) (List.mem_cons_self _ _)
      have hrec := ih fun q hq => hpre q (List.mem_cons_of_mem _ hq)
      by_cases hmem : name ∈ jsonFields
      · cases cell with
        | strCell w =>
            cases w with
            | jsonText j => simp [fromWireRow, hmem, hrec]
            | malformed raw2 => simp [failsAsJson, hmem] at hp
        | pyCell v => simp [fromWireRow, hmem, hrec]
      · simp [fromWireRow, hmem, hrec]

/-- C3 — witness for `strict_decode_aborts` at the spec's example row under
strict mode: the decode aborts naming field a and carrying its raw text. -/
theorem strict_decode_aborts_witness :
    fromWireRow ["a", "b"] true
        [("a", RVal.strCell (Wire.malformed "\x7bbad json")),
         ("b", RVal.strCell (Wire.jsonText (JsonVal.arr
            [JsonVal.intNum 1, JsonVal.intNum 2, JsonVal.intNum 3])))] =
      Except.error ⟨some "a", "\x7bbad json", DeserCause.malformedText⟩ :=
  strict_decode_aborts ["a", "b"] [] "a" "\x7bbad json"
    [("b", RVal.strCell (Wire.jsonText (JsonVal.arr
        [JsonVal.intNum 1, JsonVal.intNum 2, JsonVal.intNum 3])))]
    (by simp) (by simp)

theorem toWireRow_frame (jsonFields : List String)
    (rec : List (String × PyVal)) (out : List (String × RVal))
    (hok : toWireRow jsonFields rec = Except.ok out)
    (f : String) (v : PyVal) (hf : f ∉ jsonFields) (hmem : (f, v) ∈ rec) :
    (f, RVal.pyCell v) ∈ out := by
  induction rec generalizing out with
  | nil => cases hmem
  | cons entry rest ih =>
      obtain ⟨name, w⟩ := entry
      rcases List.mem_cons.mp hmem with heq | hmem2
      · obtain ⟨rfl, rfl⟩ := Prod.mk.injEq .. ▸ heq
        have hcond : ¬(f ∈ jsonFields ∧ v.isNone = false) := fun hc => hf hc.1
        rw [toWireRow, if_neg hcond] at hok
        cases hrest : toWireRow jsonFields rest with
        | error e => rw [hrest] at hok; cases hok
        | ok out2 =>
            rw [hrest] at hok
            cases hok
            exact List.mem_cons_self _ _
      · by_cases hcond : name ∈ jsonFields ∧ w.isNone = false
        · rw [toWireRow, if_pos hcond] at hok
          cases hser : JSONHandler.serialize w with
          | error e => rw [hser] at hok; cases hok
          | ok wire =>
              rw [hser] at hok
              cases hrest : toWireRow jsonFields rest with
              | error e => rw [hrest] at hok; cases hok
              | ok out2 =>
                  rw [hrest] at hok
                  cases hok
                  exact List.mem_cons_of_mem _ (ih out2 hrest hmem2)
        · rw [toWireRow, if_neg hcond] at hok
          cases hrest : toWireRow jsonFields rest with
          | error e => rw [hrest] at hok; cases hok
          | ok out2 =>
              rw [hrest] at hok
              cases hok
              exact List.mem_cons_of_mem _ (ih out2 hrest hmem2)

theorem fromWireRow_strict_ok (jsonFields : List String)
    (row : List (String × RVal)) (out : List (String × RVal))
    (diags : List String)
    (hok : fromWireRow jsonFields true row = Except.ok (out, diags)) :
    out = row.map (lenientCell jsonFields) := by
  induction row generalizing out diags with
  | nil =>
      cases hok
      rfl
  | cons entry rest ih =>
      obtain ⟨name, cell⟩ := entry
      by_cases hmemn : name ∈ jsonFields
      · cases cell with
        | strCell w =>
            cases w with
            | jsonText j =>
                rw [fromWireRow, if_pos hmemn] at hok
                cases hrest : fromWireRow jsonFields true rest with
                | error e => rw [hrest] at hok; cases hok
                | ok pair =>
                    obtain ⟨out2, diags2⟩ := pair
                    rw [hrest] at hok
                    cases hok
                    simp [lenientCell, hmemn]
                    exact ih out2 _ hrest
            | malformed raw =>
                rw [fromWireRow, if_pos hmemn] at hok
                simp at hok
        | pyCell v =>
            rw [fromWireRow, if_pos hmemn] at hok
            cases hrest : fromWireRow jsonFields true rest with
            | error e => rw [hrest] at hok; cases hok
            | ok pair =>
                obtain ⟨out2, diags2⟩ := pair
                rw [hrest] at hok
                cases hok
                simp [lenientCell, hmemn]
                exact ih out2 _ hrest
      · rw [fromWireRow.eq_def] at hok
        simp only [if_neg hmemn] at hok
        cases hrest : fromWireRow jsonFields true rest with
        | error e => rw [hrest] at hok; cases hok
        | ok pair =>
            obtain ⟨out2, diags2⟩ := pair
            rw [hrest] at hok
            cases hok
            simp [lenientCell, hmemn]
            exact ih out2 _ hrest

theorem fromWireRow_frame (jsonFields : List String) (strict : Bool)
    (row : List (String × RVal)) (out : List (String × RVal))
    (diags : List String)
    (hok : fromWireRow jsonFields strict row = Except.ok (out, diags))
    (f : String) (c : RVal) (hf : f ∉ jsonFields) (hmem : (f, c) ∈ row) :
    (f, c) ∈ out := by
  have hout : out = row.map (lenientCell jsonFields) := by
    cases strict with
    | true => exact fromWireRow_strict_ok _ _ _ _ hok
    | false =>
        rw [fromWireRow_lenient_eq jsonFields row] at hok
        cases hok
        rfl
  subst hout
  have := List.mem_map_of_mem (lenientCell jsonFields) hmem
  simpa [lenientCell, hf] using this

/-- C8: a field named in the `array_fields` override set is removed from the
resolved JSON field set even when auto-detection would classify it as JSON,
and both marshaling directions pass such a field through unchanged: its
value is never handed to the codec, so its value in the output row equals
its value in the input row. -/
theorem array_override_passthrough
    (detected explicitJson arrayFields vectorFields : List String)
    (autoDetect : Bool) (f : String) (hf : f ∈ arrayFields) :
    (f ∉ resolveJsonFields detected explicitJson arrayFields vectorFields autoDetect)
    ∧ (∀ rec out,
        toWireRow (resolveJsonFields detected explicitJson arrayFields
          vectorFields autoDetect) rec = Except.ok out →
        ∀ v, (f, v) ∈ rec → (f, RVal.pyCell v) ∈ out)
    ∧ (∀ strict row out diags,
        fromWireRow (resolveJsonFields detected explicitJson arrayFields
          vectorFields autoDetect) strict row = Except.ok (out, diags) →
        ∀ c, (f, c) ∈ row → (f, c) ∈ out) := by
  have hnot : f ∉ resolveJsonFields detected explicitJson arrayFields
      vectorFields autoDetect := by
    intro hmem
    exact ((List.mem_filter.mp hmem).2 |> of_decide_eq_true).1 hf
  refine ⟨hnot, ?_, ?_⟩
  · intro rec out hok v hmem
    exact toWireRow_frame _ rec out hok f v hnot hmem
  · intro strict row out diags hok c hmem
    exact fromWireRow_frame _ strict row out diags hok f c hnot hmem

/-- C8 — witness for `array_override_passthrough`: with auto-detected JSON
fields tags and metadata but tags in the array override, tags is excluded
from JSON handling and its native sequence passes through both
directions. -/
theorem array_override_passthrough_witness :
    ("tags" ∉ resolveJsonFields ["tags", "metadata"] [] ["tags"] [] true)
    ∧ ("tags", RVal.pyCell (PyVal.list [PyVal.str "python", PyVal.str "async"]))
        ∈ [("tags", RVal.pyCell (PyVal.list [PyVal.str "python", PyVal.str "async"]))] := by
  have h := array_override_passthrough ["tags", "metadata"] [] ["tags"] [] true
    "tags" (by simp)
  exact ⟨h.1, List.mem_cons_self _ _⟩

/-! ## Cycle-detection theorems -/

theorem wfHeap_children (h : List GNode) (hwf : wfHeap h = true)
    {i : Nat} {node : GNode} (hnode : h[i]? = some node) :
    ∀ c ∈ node.children, c < h.length := by
  have hmem : node ∈ h := List.getElem?_mem hnode
  simp only [wfHeap, List.all_eq_true] at hwf
  have := hwf node hmem
  simp only [List.all_eq_true, decide_eq_true_eq] at this
  exact this

theorem atomsOk_encodes (h : List GNode) (hatoms : atomsOk h = true)
    {i : Nat} {v : PyVal} (hnode : h[i]? = some (GNode.atom v)) :
    ∃ j, encodeVal v = Except.ok j := by
  have hmem : GNode.atom v ∈ h := List.getElem?_mem hnode
  simp only [atomsOk, List.all_eq_true] at hatoms
  have h2 : (encodeVal v).isOk = true := hatoms (GNode.atom v) hmem
  cases hv : encodeVal v with
  | ok j => exact ⟨j, rfl⟩
  | error e => rw [hv] at h2; simp [Except.isOk, Except.toBool] at h2

theorem no_step_of_atom (h : List GNode) {r b : Nat} {v : PyVal}
    (hnode : h[r]? = some (GNode.atom v)) (hstep : StepsTo h r b) : False := by
  obtain ⟨node, hnode2, hmemb⟩ := hstep
  rw [hnode] at hnode2
  cases hnode2
  cases hmemb

theorem not_cyclic_of_atom (h : List GNode) {r : Nat} {v : PyVal}
    (hnode : h[r]? = some (GNode.atom v)) (hcyc : cyclicFrom h r) : False := by
  obtain ⟨m, hreach, hloop⟩ := hcyc
  rcases Relation.ReflTransGen.cases_head hreach with heq | ⟨b, hstep, -⟩
  · subst heq
    obtain ⟨b, hstep, -⟩ := (Relation.TransGen.head'_iff).mp hloop
    exact no_step_of_atom h hnode hstep
  · exact no_step_of_atom h hnode hstep

theorem cyclic_step (h : List GNode) {r : Nat} {node : GNode}
    (hnode : h[r]? = some node) (hcyc : cyclicFrom h r) :
    ∃ c ∈ node.children, cyclicFrom h c := by
  obtain ⟨m, hreach, hloop⟩ := hcyc
  rcases Relation.ReflTransGen.cases_head hreach with heq | ⟨b, hstep, hreach2⟩
  · subst heq
    obtain ⟨b, hstep, hreach2⟩ := (Relation.TransGen.head'_iff).mp hloop
    obtain ⟨node2, hnode2, hmemb⟩ := hstep
    rw [hnode] at hnode2
    cases hnode2
    exact ⟨b, hmemb, r, hreach2, hloop⟩
  · obtain ⟨node2, hnode2, hmemb⟩ := hstep
    rw [hnode] at hnode2
    cases hnode2
    exact ⟨b, hmemb, m, hreach2, hloop⟩

theorem encodeRef_ok_or_cycle (h : List GNode) (hwf : wfHeap h = true)
    (hatoms : atomsOk h = true) :
    ∀ (k : Nat) (path : List Nat), freeCount h path ≤ k →
      ((∀ r, r < h.length →
          (∃ j, encodeRefWalk h path r = Except.ok j) ∨
            encodeRefWalk h path r =
              Except.error ⟨Option.none, Option.none, SerCause.cycleDetected⟩)
        ∧ (∀ rs : List Nat, (∀ r ∈ rs, r < h.length) →
            (∃ js, encodeRefList h path rs = Except.ok js) ∨
              encodeRefList h path rs =
                Except.error ⟨Option.none, Option.none, SerCause.cycleDetected⟩)
        ∧ (∀ fs : List (String × Nat), (∀ fr ∈ fs, fr.2 < h.length) →
            (∃ js, encodeRefFields h path fs = Except.ok js) ∨
              encodeRefFields h path fs =
                Except.error ⟨Option.none, Option.none, SerCause.cycleDetected⟩)) := by
  intro k
  induction k using Nat.strong_induction_on with
  | _ k ih =>
      intro path hk
      have walkClause : ∀ r, r < h.length →
          (∃ j, encodeRefWalk h path r = Except.ok j) ∨
            encodeRefWalk h path r =
              Except.error ⟨Option.none, Option.none, SerCause.cycleDetected⟩ := by
        intro r hr
        by_cases hcyc : path.contains r = true
        · right
          rw [encodeRefWalk.eq_def, dif_pos hcyc]
        · rw [encodeRefWalk.eq_def, dif_neg hcyc]
          split
          · rename_i heq
            rw [List.getElem?_eq_getElem hr] at heq
            cases heq
          · rename_i v heq
            exact Or.inl (atomsOk_encodes h hatoms heq)
          · rename_i es heq
            have hchild : ∀ c ∈ es, c < h.length := by
              have := wfHeap_children h hwf heq
              simpa [GNode.children] using this
            have hlt : freeCount h (r :: path) < k :=
              Nat.lt_of_lt_of_le
                (freeCount_cons_lt h path r hr (Bool.eq_false_iff.mpr hcyc)) hk
            rcases (ih (freeCount h (r :: path)) hlt (r :: path)
                (Nat.le_refl _)).2.1 es hchild with ⟨js, hjs⟩ | hjs
            · exact Or.inl ⟨JsonVal.arr js, by rw [hjs]; rfl⟩
            · exact Or.inr (by rw [hjs]; rfl)
          · rename_i fs heq
            have hchild : ∀ fr ∈ fs, fr.2 < h.length := by
              have := wfHeap_children h hwf heq
              intro fr hfr
              exact this fr.2
                (by simpa [GNode.children] using List.mem_map_of_mem Prod.snd hfr)
            have hlt : freeCount h (r :: path) < k :=
              Nat.lt_of_lt_of_le
                (freeCount_cons_lt h path r hr (Bool.eq_false_iff.mpr hcyc)) hk
            rcases (ih (freeCount h (r :: path)) hlt (r :: path)
                (Nat.le_refl _)).2.2 fs hchild with ⟨js, hjs⟩ | hjs
            · exact Or.inl ⟨JsonVal.obj js, by rw [hjs]; rfl⟩
            · exact Or.inr (by rw [hjs]; rfl)
      have listClause : ∀ rs : List Nat, (∀ r ∈ rs, r < h.length) →
          (∃ js, encodeRefList h path rs = Except.ok js) ∨
            encodeRefList h path rs =
              Except.error ⟨Option.none, Option.none, SerCause.cycleDetected⟩ := by
        intro rs hrs
        induction rs with
        | nil => exact Or.inl ⟨[], by simp [encodeRefList]⟩
        | cons r rest ihl =>
            have hr := hrs r (List.mem_cons_self _ _)
            have hrest := ihl fun x hx => hrs x (List.mem_cons_of_mem _ hx)
            rcases walkClause r hr with ⟨j, hj⟩ | hj
            · rcases hrest with ⟨js, hjs⟩ | hjs
              · exact Or.inl ⟨j :: js, by simp [encodeRefList, hj, hjs]⟩
              · exact Or.inr (by simp [encodeRefList, hj, hjs])
            · exact Or.inr (by simp [encodeRefList, hj])
      have fieldsClause : ∀ fs : List (String × Nat), (∀ fr ∈ fs, fr.2 < h.length) →
          (∃ js, encodeRefFields h path fs = Except.ok js) ∨
            encodeRefFields h path fs =
              Except.error ⟨Option.none, Option.none, SerCause.cycleDetected⟩ := by
        intro fs hfs
        induction fs with
        | nil => exact Or.inl ⟨[], by simp [encodeRefFields]⟩
        | cons fr rest ihl =>
            have hr := hfs fr (List.mem_cons_self _ _)
            have hrest := ihl fun x hx => hfs x (List.mem_cons_of_mem _ hx)
            rcases walkClause fr.2 hr with ⟨j, hj⟩ | hj
            · rcases hrest with ⟨js, hjs⟩ | hjs
              · exact Or.inl ⟨(fr.1, j) :: js, by simp [encodeRefFields, hj, hjs]⟩
              · exact Or.inr (by simp [encodeRefFields, hj, hjs])
            · exact Or.inr (by simp [encodeRefFields, hj])
      exact ⟨walkClause, listClause, fieldsClause⟩

theorem encodeRef_cyclic_not_ok (h : List GNode) :
    ∀ (k : Nat) (path : List Nat), freeCount h path ≤ k →
      ((∀ r, cyclicFrom h r → ∀ j, encodeRefWalk h path r ≠ Except.ok j)
        ∧ (∀ rs : List Nat, (∃ r ∈ rs, cyclicFrom h r) →
            ∀ js, encodeRefList h path rs ≠ Except.ok js)
        ∧ (∀ fs : List (String × Nat), (∃ fr ∈ fs, cyclicFrom h fr.2) →
            ∀ js, encodeRefFields h path fs ≠ Except.ok js)) := by
  intro k
  induction k using Nat.strong_induction_on with
  | _ k ih =>
      intro path hk
      have walkClause : ∀ r, cyclicFrom h r →
          ∀ j, encodeRefWalk h path r ≠ Except.ok j := by
        intro r hcycr j hok
        by_cases hcyc : path.contains r = true
        · rw [encodeRefWalk.eq_def, dif_pos hcyc] at hok
          cases hok
        · rw [encodeRefWalk.eq_def, dif_neg hcyc] at hok
          revert hok
          split
          · intro hok; cases hok
          · rename_i v heq
            intro hok
            exact not_cyclic_of_atom h heq hcycr
          · rename_i es heq
            intro hok
            obtain ⟨hlt, -⟩ := List.getElem?_eq_some.mp heq
            obtain ⟨c, hcmem, hcycc⟩ := cyclic_step h heq hcycr
            simp only [GNode.children] at hcmem
            have hklt : freeCount h (r :: path) < k :=
              Nat.lt_of_lt_of_le
                (freeCount_cons_lt h path r hlt (Bool.eq_false_iff.mpr hcyc)) hk
            cases hres : encodeRefList h (r :: path) es with
            | error e => rw [hres] at hok; cases hok
            | ok js =>
                exact (ih (freeCount h (r :: path)) hklt (r :: path)
                  (Nat.le_refl _)).2.1 es ⟨c, hcmem, hcycc⟩ js hres
          · rename_i fs heq
            intro hok
            obtain ⟨hlt, -⟩ := List.getElem?_eq_some.mp heq
            obtain ⟨c, hcmem, hcycc⟩ := cyclic_step h heq hcycr
            simp only [GNode.children] at hcmem
            obtain ⟨fr, hfrmem, hfr2⟩ := List.mem_map.mp hcmem
            have hklt : freeCount h (r :: path) < k :=
              Nat.lt_of_lt_of_le
                (freeCount_cons_lt h path r hlt (Bool.eq_false_iff.mpr hcyc)) hk
            cases hres : encodeRefFields h (r :: path) fs with
            | error e => rw [hres] at hok; cases hok
            | ok js =>
                exact (ih (freeCount h (r :: path)) hklt (r :: path)
                  (Nat.le_refl _)).2.2 fs ⟨fr, hfrmem, hfr2 ▸ hcycc⟩ js hres
      have listClause : ∀ rs : List Nat, (∃ r ∈ rs, cyclicFrom h r) →
          ∀ js, encodeRefList h path rs ≠ Except.ok js := by
        intro rs hex
        induction rs with
        | nil => obtain ⟨r, hmem, -⟩ := hex; cases hmem
        | cons r rest ihl =>
            intro js hok
            obtain ⟨x, hxmem, hxcyc⟩ := hex
            cases hwres : encodeRefWalk h path r with
            | error e => simp [encodeRefList, hwres] at hok
            | ok j =>
                rcases List.mem_cons.mp hxmem with heq | hxmem2
                · subst heq
                  exact walkClause x hxcyc j hwres
                · cases hres : encodeRefList h path rest with
                  | error e => simp [encodeRefList, hwres, hres] at hok
                  | ok js2 => exact ihl ⟨x, hxmem2, hxcyc⟩ js2 hres
      have fieldsClause : ∀ fs : List (String × Nat),
          (∃ fr ∈ fs, cyclicFrom h fr.2) →
          ∀ js, encodeRefFields h path fs ≠ Except.ok js := by
        intro fs hex
        induction fs with
        | nil => obtain ⟨fr, hmem, -⟩ := hex; cases hmem
        | cons fr rest ihl =>
            intro js hok
            obtain ⟨x, hxmem, hxcyc⟩ := hex
            cases hwres : encodeRefWalk h path fr.2 with
            | error e => simp [encodeRefFields, hwres] at hok
            | ok j =>
                rcases List.mem_cons.mp hxmem with heq | hxmem2
                · subst heq
                  exact walkClause x.2 hxcyc j hwres
                · cases hres : encodeRefFields h path rest with
                  | error e => simp [encodeRefFields, hwres, hres] at hok
                  | ok js2 => exact ihl ⟨x, hxmem2, hxcyc⟩ js2 hres
      exact ⟨walkClause, listClause, fieldsClause⟩

/-- C7: `encode` on an object graph always terminates — `encodeRefWalk` is
defined by recursion on the identities not yet on the DFS path, the spec's
"bounded by the seen-set check" — and for every well-formed heap whose leaf
objects are all encodable, a top-level record field whose subtree contains a
cycle (with every earlier field encoding successfully) makes encode fail
with a `SerializationError` naming that field with cause `CycleDetected`. -/
theorem encode_cycle_detected (h : List GNode)
    (hwf : wfHeap h = true) (hatoms : atomsOk h = true)
    (root : Nat) (fs : List (String × Nat))
    (hroot : h[root]? = some (GNode.objN fs))
    (pre : List (String × Nat)) (f : String) (r : Nat)
    (rest : List (String × Nat))
    (hsplit : fs = pre ++ (f, r) :: rest)
    (hpre : ∀ fr ∈ pre, ∃ j, encodeRefWalk h [root] fr.2 = Except.ok j)
    (hcyc : cyclicFrom h r) :
    encodeGraph h root =
      Except.error ⟨some f, Option.none, SerCause.cycleDetected⟩ := by
  subst hsplit
  have hrlen : r < h.length := by
    refine wfHeap_children h hwf hroot r ?_
    simp only [GNode.children, List.map_append, List.map_cons]
    exact List.mem_append.mpr (Or.inr (List.mem_cons_self _ _))
  have hwalk : encodeRefWalk h [root] r =
      Except.error ⟨Option.none, Option.none, SerCause.cycleDetected⟩ := by
    rcases (encodeRef_ok_or_cycle h hwf hatoms (freeCount h [root]) [root]
        (Nat.le_refl _)).1 r hrlen with ⟨j, hj⟩ | herr
    · exact absurd hj ((encodeRef_cyclic_not_ok h (freeCount h [root]) [root]
        (Nat.le_refl _)).1 r hcyc j)
    · exact herr
  have key : ∀ pre2 : List (String × Nat),
      (∀ fr ∈ pre2, ∃ j, encodeRefWalk h [root] fr.2 = Except.ok j) →
      encodeTopFields h root (pre2 ++ (f, r) :: rest) =
        Except.error ⟨some f, Option.none, SerCause.cycleDetected⟩ := by
    intro pre2 hpre2
    induction pre2 with
    | nil => simp [encodeTopFields, hwalk]
    | cons p pre3 ihp =>
        obtain ⟨j, hj⟩ := hpre2 p (List.mem_cons_self _ _)
        have := ihp fun q hq => hpre2 q (List.mem_cons_of_mem _ hq)
        simp [encodeTopFields, hj, this]
  simp [encodeGraph, hroot, key pre hpre, Except.map]

/-- The spec's cycle-safety example as an object graph:
`a = {"k": "v"}; a["self"] = a; encode({"metadata": a})`.  Identity 0 is the
top-level record, identity 1 is `a`, identity 2 the string leaf. -/
def cycleHeapSample : List GNode :=
  [GNode.objN [("metadata", 1)],
   GNode.objN [("k", 2), ("self", 1)],
   GNode.atom (PyVal.str "v")]

/-- C7 — witness for `encode_cycle_detected` at the spec's concrete cyclic
value: the failure names field metadata with cause `CycleDetected`. -/
theorem encode_cycle_detected_witness :
    encodeGraph cycleHeapSample 0 =
      Except.error ⟨some "metadata", Option.none, SerCause.cycleDetected⟩ :=
  encode_cycle_detected cycleHeapSample rfl
    (by
      simp only [atomsOk, List.all_eq_true]
      intro x hx
      fin_cases hx <;> simp [encodeVal, Except.isOk, Except.toBool])
    0 [("metadata", 1)] rfl [] "metadata" 1 [] rfl
    (fun fr hfr => absurd hfr (List.not_mem_nil fr))
    ⟨1, Relation.ReflTransGen.refl,
      Relation.TransGen.single
        ⟨GNode.objN [("k", 2), ("self", 1)], rfl, by simp [GNode.children]⟩⟩
